import Mathlib

/-!
Verification of the matching and risk-scoring engine of the KYC & sanctions
screening tool (`kyc_screening.py`, `utils.py`, `config.py`).

Strings are modelled as `List Char`; scores are modelled as rationals
(Python floats at these magnitudes behave like exact rationals for every
comparison appearing below).  Character classes (`\w`, `\s`, `str.lower`)
are modelled on the ASCII fragment that the tool's Latin-script pipeline
is concerned with.
-/

namespace KYC

/-! ## Character primitives -/

/-- The regex class `\w` (word character) on the ASCII fragment:
letters, digits and the underscore. -/
def isWordChar (c : Char) : Bool := c.isAlphanum || c == '_'

/-- The regex class `\s` (whitespace) on the ASCII fragment. -/
def isSpaceChar (c : Char) : Bool :=
  c == ' ' || c == '\t' || c == '\n' || c == '\r' || c == '\x0b' || c == '\x0c'

/-- `str.lower` on one character (ASCII fragment): map A-Z to a-z. -/
def pyLower (c : Char) : Char :=
  if 65 ≤ c.toNat ∧ c.toNat ≤ 90 then Char.ofNat (c.toNat + 32) else c

/-! ## difflib.SequenceMatcher

`StringUtils.similarity_ratio` calls `SequenceMatcher(None, a, b).ratio()`.
`ratio` is `2*M/T` where `T` is the total length and `M` is the total size
of the matching blocks found by the recursive Ratcliff/Obershelp procedure:
find the longest matching block (among maximal blocks the one starting
earliest in `a`, then earliest in `b`), then recurse on the pieces to its
left and to its right. -/

/-- Length of the longest common prefix of two lists. -/
def runLen : List Char → List Char → Nat
  | a :: as, b :: bs => if a = b then runLen as bs + 1 else 0
  | _, _ => 0

/-- All index pairs `(i, j)` with `i < la`, `j < lb`, in row-major order. -/
def pairList (la lb : Nat) : List (Nat × Nat) :=
  (List.range la).flatMap fun i => (List.range lb).map fun j => (i, j)

/-- Fold of the longest-match search over a list of candidate start pairs:
keep the best `(i, j, k)`, updating only on a strictly longer run, so the
earliest (row-major) maximal pair wins. -/
def flmAux (a b : List Char) : List (Nat × Nat) → Nat × Nat × Nat → Nat × Nat × Nat
  | [], best => best
  | (i, j) :: rest, best =>
    let k := runLen (a.drop i) (b.drop j)
    flmAux a b rest (if best.2.2 < k then (i, j, k) else best)

/-- `find_longest_match` over the whole of `a` and `b` (no junk):
the maximal matching block starting earliest in `a`, then earliest in `b`. -/
def flm (a b : List Char) : Nat × Nat × Nat :=
  flmAux a b (pairList a.length b.length) (0, 0, 0)

/-- Total size of the matching blocks (fuelled recursion; fuel
`a.length + b.length` always suffices since each step removes at least one
character from the combined input). -/
def matchSumF : Nat → List Char → List Char → Nat
  | 0, _, _ => 0
  | fuel + 1, a, b =>
    let r := flm a b
    if r.2.2 = 0 then 0
    else
      matchSumF fuel (a.take r.1) (b.take r.2.1) + r.2.2 +
        matchSumF fuel (a.drop (r.1 + r.2.2)) (b.drop (r.2.1 + r.2.2))

def matchSum (a b : List Char) : Nat := matchSumF (a.length + b.length) a b

/-- `StringUtils.similarity_ratio`: 0 if either string is empty, otherwise
`SequenceMatcher(None, str1, str2).ratio() * 100 = 2*M/T * 100`. -/
def similarityScore (str1 str2 : List Char) : ℚ :=
  if str1 = [] ∨ str2 = [] then 0
  else (2 * (matchSum str1 str2 : ℚ) / ((str1.length : ℚ) + (str2.length : ℚ))) * 100

/-! ## Elementary facts about the matcher -/

theorem runLen_le_left : ∀ a b : List Char, runLen a b ≤ a.length
  | [], _ => by simp [runLen]
  | _ :: _, [] => by simp [runLen]
  | a :: as, b :: bs => by
    simp only [runLen]
    split
    · exact Nat.succ_le_succ (runLen_le_left as bs)
    · exact Nat.zero_le _

theorem runLen_le_right : ∀ a b : List Char, runLen a b ≤ b.length
  | [], _ => by simp [runLen]
  | _ :: _, [] => by simp [runLen]
  | a :: as, b :: bs => by
    simp only [runLen]
    split
    · exact Nat.succ_le_succ (runLen_le_right as bs)
    · exact Nat.zero_le _

theorem runLen_self : ∀ a : List Char, runLen a a = a.length
  | [] => rfl
  | c :: cs => by simp [runLen, runLen_self cs]

/-- Invariant carried by the longest-match fold: the best triple stays
within bounds. -/
def flmInv (a b : List Char) (t : Nat × Nat × Nat) : Prop :=
  t.1 + t.2.2 ≤ a.length ∧ t.2.1 + t.2.2 ≤ b.length

theorem flmAux_inv (a b : List Char) :
    ∀ (ps : List (Nat × Nat)) (best : Nat × Nat × Nat),
      (∀ p ∈ ps, p.1 ≤ a.length ∧ p.2 ≤ b.length) →
      flmInv a b best → flmInv a b (flmAux a b ps best)
  | [], best, _, hb => hb
  | (i, j) :: rest, best, hps, hb => by
    have hij : i ≤ a.length ∧ j ≤ b.length := hps (i, j) (List.mem_cons_self _ _)
    refine flmAux_inv a b rest _ (fun p hp => hps p (List.mem_cons_of_mem _ hp)) ?_
    by_cases h : best.2.2 < runLen (a.drop i) (b.drop j)
    · rw [if_pos h]
      refine ⟨?_, ?_⟩
      · show i + runLen (a.drop i) (b.drop j) ≤ a.length
        have := runLen_le_left (a.drop i) (b.drop j)
        simp only [List.length_drop] at this
        omega
      · show j + runLen (a.drop i) (b.drop j) ≤ b.length
        have := runLen_le_right (a.drop i) (b.drop j)
        simp only [List.length_drop] at this
        omega
    · rw [if_neg h]
      exact hb

theorem pairList_mem {la lb : Nat} {p : Nat × Nat} (hp : p ∈ pairList la lb) :
    p.1 < la ∧ p.2 < lb := by
  rcases List.mem_flatMap.1 hp with ⟨i, hi, hmem⟩
  rcases List.mem_map.1 hmem with ⟨j, hj, rfl⟩
  exact ⟨List.mem_range.1 hi, List.mem_range.1 hj⟩

theorem mem_pairList {la lb i j : Nat} (hi : i < la) (hj : j < lb) :
    (i, j) ∈ pairList la lb :=
  List.mem_flatMap.2 ⟨i, List.mem_range.2 hi,
    List.mem_map.2 ⟨j, List.mem_range.2 hj, rfl⟩⟩

theorem flm_inv (a b : List Char) : flmInv a b (flm a b) := by
  refine flmAux_inv a b _ _ (fun p hp => ?_) ⟨Nat.zero_le _, Nat.zero_le _⟩
  have := pairList_mem hp
  exact ⟨Nat.le_of_lt this.1, Nat.le_of_lt this.2⟩

/-- The matched total never exceeds the length of either input. -/
theorem matchSumF_le : ∀ (fuel : Nat) (a b : List Char),
    matchSumF fuel a b ≤ a.length ∧ matchSumF fuel a b ≤ b.length
  | 0, _, _ => ⟨Nat.zero_le _, Nat.zero_le _⟩
  | fuel + 1, a, b => by
    simp only [matchSumF]
    by_cases h : (flm a b).2.2 = 0
    · simp [h]
    · simp only [if_neg h]
      obtain ⟨h1, h2⟩ := flm_inv a b
      have ihl := matchSumF_le fuel (a.take (flm a b).1) (b.take (flm a b).2.1)
      have ihr := matchSumF_le fuel (a.drop ((flm a b).1 + (flm a b).2.2))
        (b.drop ((flm a b).2.1 + (flm a b).2.2))
      simp only [List.length_take, List.length_drop] at ihl ihr
      omega

theorem matchSum_le_left (a b : List Char) : matchSum a b ≤ a.length :=
  (matchSumF_le _ a b).1

theorem matchSum_le_right (a b : List Char) : matchSum a b ≤ b.length :=
  (matchSumF_le _ a b).2

theorem flmAux_best_le (a b : List Char) :
    ∀ (ps : List (Nat × Nat)) (best : Nat × Nat × Nat),
      best.2.2 ≤ (flmAux a b ps best).2.2
  | [], _ => le_rfl
  | (i, j) :: rest, best => by
    refine le_trans ?_ (flmAux_best_le a b rest _)
    by_cases h : best.2.2 < runLen (a.drop i) (b.drop j)
    · rw [if_pos h]; exact Nat.le_of_lt h
    · rw [if_neg h]

theorem flmAux_mem_le (a b : List Char) :
    ∀ (ps : List (Nat × Nat)) (best : Nat × Nat × Nat) (p : Nat × Nat),
      p ∈ ps → runLen (a.drop p.1) (b.drop p.2) ≤ (flmAux a b ps best).2.2
  | (i, j) :: rest, best, p, hp => by
    rcases List.mem_cons.1 hp with heq | hmem
    · subst heq
      refine le_trans ?_ (flmAux_best_le a b rest _)
      by_cases h : best.2.2 < runLen (a.drop i) (b.drop j)
      · rw [if_pos h]
      · rw [if_neg h]; exact Nat.le_of_not_lt h
    · exact flmAux_mem_le a b rest _ p hmem

/-- On a pair of identical nonempty strings, the longest match is the whole
string. -/
theorem flm_self {s : List Char} (hs : s ≠ []) : flm s s = (0, 0, s.length) := by
  have hlen : 0 < s.length := List.length_pos.2 hs
  have hmem : ((0, 0) : Nat × Nat) ∈ pairList s.length s.length :=
    mem_pairList hlen hlen
  have hge : s.length ≤ (flm s s).2.2 := by
    have := flmAux_mem_le s s (pairList s.length s.length) (0, 0, 0) (0, 0) hmem
    simpa [runLen_self] using this
  obtain ⟨h1, h2⟩ := flm_inv s s
  have hk : (flm s s).2.2 = s.length := by omega
  have hi : (flm s s).1 = 0 := by omega
  have hj : (flm s s).2.1 = 0 := by omega
  exact Prod.ext hi (Prod.ext hj hk)

theorem flm_nil_left (b : List Char) : flm [] b = (0, 0, 0) := by
  simp [flm, pairList, flmAux]

theorem matchSumF_nil_left (fuel : Nat) (b : List Char) : matchSumF fuel [] b = 0 := by
  cases fuel with
  | zero => rfl
  | succ n => simp [matchSumF, flm_nil_left]

/-- On identical strings the whole length is matched. -/
theorem matchSum_self (s : List Char) : matchSum s s = s.length := by
  rcases eq_or_ne s [] with rfl | hs
  · simp [matchSum, matchSumF]
  · have hlen : 0 < s.length := List.length_pos.2 hs
    obtain ⟨f, hf⟩ : ∃ f, s.length + s.length = f + 1 := ⟨s.length + s.length - 1, by omega⟩
    rw [matchSum, hf]
    simp only [matchSumF, flm_self hs]
    rw [if_neg (by omega)]
    simp [List.take_zero, List.drop_length, matchSumF_nil_left]

/-! ## Splitting, joining and sorting (str.split, ' '.join, sorted) -/

/-- Accumulating scanner behind `runsBy`: maximal runs of characters
satisfying `p` (the accumulator holds the current run reversed). -/
def runsGo (p : Char → Bool) : List Char → List Char → List (List Char)
  | cur, [] => if cur = [] then [] else [cur.reverse]
  | cur, c :: rest =>
    if p c then runsGo p (c :: cur) rest
    else if cur = [] then runsGo p [] rest else cur.reverse :: runsGo p [] rest

/-- The maximal runs of characters satisfying `p`, in order. -/
def runsBy (p : Char → Bool) (s : List Char) : List (List Char) := runsGo p [] s

/-- Python `str.split()` with no separator: maximal runs of
non-whitespace characters. -/
def pySplit (s : List Char) : List (List Char) := runsBy (fun c => !isSpaceChar c) s

/-- Python `' '.join(ws)`. -/
def unwords : List (List Char) → List Char
  | [] => []
  | [w] => w
  | w :: ws => w ++ ' ' :: unwords ws

/-- Python `str.strip()`: drop leading and trailing whitespace. -/
def pyStrip (s : List Char) : List Char :=
  ((s.dropWhile isSpaceChar).reverse.dropWhile isSpaceChar).reverse

/-- Python string `<=` : lexicographic comparison by code point. -/
def strLe : List Char → List Char → Bool
  | [], _ => true
  | _ :: _, [] => false
  | c :: cs, d :: ds => if c = d then strLe cs ds else decide (c.toNat < d.toNat)

/-- Stable insertion into a sorted list of strings. -/
def insertStr (x : List Char) : List (List Char) → List (List Char)
  | [] => [x]
  | y :: ys => if strLe x y then x :: y :: ys else y :: insertStr x ys

/-- Python `sorted` on a list of strings (insertion sort; stable, and
`strLe` is total, so this agrees with any stable sort). -/
def pySorted (l : List (List Char)) : List (List Char) := l.foldr insertStr []

/-! ## StringUtils.normalize_english

`normalize_english` lower-cases and strips the input, removes each of a
fixed list of titles as whole words (regex `\btitle\b\.?\s*`, applied with
`re.sub` title by title), replaces remaining non-word non-space characters
by spaces, and collapses whitespace (`' '.join(text.split())`). -/

/-- The titles removed by `normalize_english`, in the source's order. -/
def TITLES : List (List Char) :=
  ["mr".data, "mrs".data, "ms".data, "miss".data, "dr".data, "prof".data,
   "eng".data, "sir".data, "madam".data, "lord".data, "lady".data,
   "haj".data, "sheikh".data]

/-- The `\b` boundary after the title inside `\btitle\b\.?\s*`: the
character following the title (if any) is not a word character. -/
def afterOk (t s : List Char) : Bool :=
  match s.drop t.length with
  | [] => true
  | c :: _ => !isWordChar c

/-- Consume the `\.?\s*` part that follows a matched title.  Returns the
remaining input together with the word-character status of the last
consumed character (the status of the title's final letter when nothing
further was consumed). -/
def eatDotSpaces (s1 : List Char) : List Char × Bool :=
  match s1 with
  | [] => ([], true)
  | c :: r =>
    if c = '.' then (r.dropWhile isSpaceChar, false)
    else if isSpaceChar c then (r.dropWhile isSpaceChar, false)
    else (s1, true)

/-- Does `\b{t}\b` match at the current scan position?  `pw` is the
word-character status of the previous character (the leading `\b`), the
title must be a prefix, and the trailing `\b` requires a non-word
character (or the end) right after it. -/
def titleHit (t : List Char) (pw : Bool) (s : List Char) : Bool :=
  !t.isEmpty && !pw && t.isPrefixOf s && afterOk t s

/-- One `re.sub(rf'\b{t}\b\.?\s*', '', s)` pass, scanning left to right.
`pw` records whether the previous character was a word character (for the
leading `\b`); the fuel is the length of the remaining input, which always
suffices. -/
def subTitleF : Nat → List Char → Bool → List Char → List Char
  | 0, _, _, s => s
  | fuel + 1, t, pw, s =>
    match s with
    | [] => []
    | c :: rest =>
      if titleHit t pw (c :: rest) then
        let p := eatDotSpaces ((c :: rest).drop t.length)
        subTitleF fuel t p.2 p.1
      else c :: subTitleF fuel t (isWordChar c) rest

/-- `re.sub(rf'\b{t}\b\.?\s*', '', s)` with scan state `pw`. -/
def stripTitleP (t : List Char) (pw : Bool) (s : List Char) : List Char :=
  subTitleF s.length t pw s

/-- `StringUtils.normalize_english` on the ASCII fragment. -/
def normalizeEnglish (text : List Char) : List Char :=
  if text = [] then []
  else
    let t1 := pyStrip (text.map pyLower)
    let t2 := TITLES.foldl (fun acc t => stripTitleP t false acc) t1
    let t3 := t2.map fun c => if isWordChar c || isSpaceChar c then c else ' '
    unwords (pySplit t3)

/-! ## The remaining SimilarityScorer metrics -/

/-- `StringUtils._partial_ratio`: slide the shorter string over the longer
one and take the best plain score over all windows (the window list is
never empty, and every score is nonnegative, so folding `max` over `0`
agrees with Python's `max(scores)`). -/
def windowMaxScore (str1 str2 : List Char) : ℚ :=
  let sh := if str1.length ≤ str2.length then str1 else str2
  let lo := if str1.length ≤ str2.length then str2 else str1
  let m := sh.length
  let scores := (List.range (lo.length - m + 1)).map
    fun i => similarityScore sh ((lo.drop i).take m)
  scores.foldr max 0

/-- `StringUtils._token_sort_ratio`: sort the whitespace tokens of each
string, rejoin with single spaces, and take the plain score. -/
def tokenSortScore (str1 str2 : List Char) : ℚ :=
  similarityScore (unwords (pySorted (pySplit str1)))
    (unwords (pySorted (pySplit str2)))

/-- `StringUtils.fuzzy_match_names`: normalize both names, compute the
three metrics, keep the highest, compare against the threshold. -/
def fuzzyMatchNames (name1 name2 : List Char) (threshold : ℚ) : Bool × ℚ :=
  if name1 = [] ∨ name2 = [] then (false, 0)
  else
    let norm1 := normalizeEnglish name1
    let norm2 := normalizeEnglish name2
    let r := similarityScore norm1 norm2
    let pr := windowMaxScore norm1 norm2
    let tsr := tokenSortScore norm1 norm2
    let score := max r (max pr tsr)
    (decide (score ≥ threshold), score)

/-! ## Configuration (config.py) -/

def name_match_threshold : ℚ := 85

def pep_penalty : Nat := 30
def high_risk_country_penalty : Nat := 25
def sanction_match_penalty : Nat := 100
def partial_match_penalty : Nat := 50
def age_risk_threshold : Int := 70
def unusual_id_penalty : Nat := 20
def max_risk_score : Nat := 100

def HIGH_RISK_COUNTRIES : List (List Char) :=
  ["AF".data, "IR".data, "KP".data, "SY".data, "YE".data, "SD".data,
   "SO".data, "IQ".data, "LY".data, "VE".data, "CU".data, "RU".data,
   "BY".data, "MM".data, "ER".data, "ZW".data]

def PEP_INDICATORS : List (List Char) :=
  ["minister".data, "president".data, "prime minister".data, "senator".data,
   "congress".data, "parliament".data, "ambassador".data, "governor".data,
   "mayor".data, "diplomat".data, "secretary".data, "commissioner".data,
   "general".data, "colonel".data, "major".data, "captain".data,
   "admiral".data, "marshal".data, "king".data, "queen".data,
   "prince".data, "princess".data, "emir".data, "sultan".data,
   "sheikh".data, "royal".data, "judge".data, "justice".data,
   "magistrate".data, "prosecutor".data, "director".data,
   "commissioner".data, "controller".data, "auditor".data]

/-! ## Data model -/

inductive MatchType
  | exact
  | partialMatch
  | noMatch
deriving DecidableEq

inductive RiskLevel
  | VERY_LOW
  | LOW
  | MEDIUM
  | HIGH
  | CRITICAL
deriving DecidableEq

inductive ScreeningResult
  | CLEAR
  | CLEAR_WITH_WARNING
  | REVIEW_REQUIRED
  | REJECTED
deriving DecidableEq

/-- A customer record as produced by `_collect_customer_information`:
every key is present; optional fields hold `None` (here `none`) when the
prompt was left blank. -/
structure Customer where
  full_name_en : List Char
  date_of_birth : Option (List Char)
  nationality_code : List Char
  occupation : Option (List Char)
  id_number : List Char

/-- A sanctions-list row (`sanctions_list` table): `full_name_en` is NOT
NULL, the other text columns are nullable. -/
structure Sanction where
  id : Nat
  full_name_en : List Char
  alias_en : Option (List Char)
  nationality_code : Option (List Char)
  date_of_birth : Option (List Char)
  list_source : Option (List Char)
  risk_level : List Char

/-- The dict returned by `_check_sanction_match`. -/
structure MatchRec where
  is_match : Bool
  sanction_id : Nat
  sanction_name : List Char
  sanction_source : Option (List Char)
  match_type : MatchType
  match_score : ℚ
  name_match_score : ℚ
  dob_match : Bool
  nationality_match : Bool
  risk_level : List Char
deriving DecidableEq

/-- The risk-assessment dict returned by `calculate_customer_risk`
(the `risk_details` map and timestamp are not modelled; no claim
mentions them). -/
structure Risk where
  risk_score : Nat
  risk_level : RiskLevel
  risk_factors : List (List Char)

inductive PyErr
  | attributeError
deriving DecidableEq

/-- Python truthiness of an optional string: `None` and `''` are falsy. -/
def pyTruthy (o : Option (List Char)) : Bool :=
  match o with
  | none => false
  | some s => !s.isEmpty

/-! ## MatchEvaluator (`_check_sanction_match`) -/

/-- The per-entry date-of-birth test of `_check_sanction_match`: both
fields truthy and equal. -/
def dobMatched (c : Customer) (sa : Sanction) : Bool :=
  pyTruthy c.date_of_birth && pyTruthy sa.date_of_birth &&
    decide (c.date_of_birth = sa.date_of_birth)

/-- The pre-bonus match score of `_check_sanction_match`: the maximum of
the plain ratio against the primary name and the plain ratio against the
single `alias_en` field (0 when the normalized alias is empty), on the
normalized names. -/
def preBonusScore (c : Customer) (sa : Sanction) : ℚ :=
  max (similarityScore (normalizeEnglish c.full_name_en) (normalizeEnglish sa.full_name_en))
    (if normalizeEnglish (sa.alias_en.getD []) ≠ [] then
      similarityScore (normalizeEnglish c.full_name_en) (normalizeEnglish (sa.alias_en.getD []))
     else 0)

/-- The classification step of `_check_sanction_match`: at least the
threshold and at least 95 → EXACT; at least the threshold → PARTIAL;
otherwise NO_MATCH. -/
def classifyScore (q : ℚ) : MatchType :=
  if q ≥ name_match_threshold then
    (if q ≥ 95 then .exact else .partialMatch)
  else .noMatch

/-- `_check_sanction_match`.  The name score is the plain
`similarity_ratio` against the primary name, the alias score the plain
ratio against the single `alias_en` field (0 when empty); classification
is decided from their maximum before the date-of-birth bonus; the stored
score is clamped at 100. -/
def check_sanction_match (c : Customer) (sa : Sanction) : MatchRec :=
  let customer_name := normalizeEnglish c.full_name_en
  let sanction_name := normalizeEnglish sa.full_name_en
  let alias_name := normalizeEnglish (sa.alias_en.getD [])
  let name_match_score := similarityScore customer_name sanction_name
  let alias_match_score := if alias_name ≠ [] then similarityScore customer_name alias_name else 0
  let match_score := max name_match_score alias_match_score
  let im_mt : Bool × MatchType :=
    if match_score ≥ name_match_threshold then
      (true, if match_score ≥ 95 then .exact else .partialMatch)
    else (false, .noMatch)
  let dob_match := dobMatched c sa
  let boosted := if dob_match then match_score + 20 else match_score
  { is_match := im_mt.1
    sanction_id := sa.id
    sanction_name := sa.full_name_en
    sanction_source := sa.list_source
    match_type := im_mt.2
    match_score := min boosted 100
    name_match_score := name_match_score
    dob_match := dob_match
    nationality_match := decide (sa.nationality_code = some c.nationality_code)
    risk_level := sa.risk_level }

/-- `_perform_sanctions_screening`, with the record store's candidate set
passed in (candidate retrieval is external): evaluate every candidate and
retain only the verdicts with `is_match` true. -/
def perform_sanctions_screening (c : Customer) (candidates : List Sanction) : List MatchRec :=
  if c.full_name_en = [] then []
  else (candidates.map (check_sanction_match c)).filter (·.is_match)

/-! ## RiskCalculator -/

/-- Python substring test `needle in hay`. -/
def isSubstr (needle hay : List Char) : Bool :=
  (List.range (hay.length + 1)).any fun i => needle.isPrefixOf (hay.drop i)

/-- `StringUtils.contains_pep_indicator`. -/
def contains_pep_indicator (text : List Char) (indicators : List (List Char)) : Bool :=
  if text = [] then false
  else indicators.any fun ind => isSubstr ind (text.map pyLower)

structure PyDate where
  year : Int
  month : Nat
  day : Nat
deriving DecidableEq

def digitsVal (s : List Char) : Nat := s.foldl (fun a c => a * 10 + (c.toNat - 48)) 0

def isLeapYear (y : Int) : Bool := y % 4 == 0 && (y % 100 != 0 || y % 400 == 0)

def daysInMonth (y : Int) (m : Nat) : Nat :=
  if m = 2 then (if isLeapYear y then 29 else 28)
  else if m = 4 ∨ m = 6 ∨ m = 9 ∨ m = 11 then 30 else 31

/-- Python `str.split(sep)` (keeps empty pieces). -/
def splitOnGo (sep : Char) : List Char → List Char → List (List Char)
  | cur, [] => [cur.reverse]
  | cur, c :: rest =>
    if c = sep then cur.reverse :: splitOnGo sep [] rest
    else splitOnGo sep (c :: cur) rest

def splitOn (sep : Char) (s : List Char) : List (List Char) := splitOnGo sep [] s

/-- `datetime.strptime(s, '%Y-%m-%d').date()`: four year digits, one or
two month and day digits, calendar-valid; `none` on failure. -/
def parseDate (s : List Char) : Option PyDate :=
  match splitOn '-' s with
  | [ys, ms, ds] =>
    if ys.length = 4 ∧ (ys.all Char.isDigit) ∧
        1 ≤ ms.length ∧ ms.length ≤ 2 ∧ (ms.all Char.isDigit) ∧
        1 ≤ ds.length ∧ ds.length ≤ 2 ∧ (ds.all Char.isDigit) then
      let y : Int := (digitsVal ys : Nat)
      let m := digitsVal ms
      let d := digitsVal ds
      if 1 ≤ y ∧ 1 ≤ m ∧ m ≤ 12 ∧ 1 ≤ d ∧ d ≤ daysInMonth y m then
        some ⟨y, m, d⟩
      else none
    else none
  | _ => none

/-- `DateUtils.calculate_age` relative to an explicit `today` (the source
reads the wall clock): full years, minus one if the birthday has not yet
occurred this year; `none` when the string does not parse. -/
def calculate_age (today : PyDate) (birth : List Char) : Option Int :=
  match parseDate birth with
  | none => none
  | some b =>
    some (today.year - b.year -
      (if today.month < b.month ∨ (today.month = b.month ∧ today.day < b.day) then 1 else 0))

/-- Risk signal 1 (PEP): fired penalty and factor string. -/
def pepBlock (occupation : List Char) : List (Nat × List Char) :=
  if contains_pep_indicator occupation PEP_INDICATORS then
    [(pep_penalty, "PEP - Politically Exposed Person".data)]
  else []

/-- Risk signal 2 (high-risk country). -/
def countryBlock (nationality : List Char) : List (Nat × List Char) :=
  if nationality ∈ HIGH_RISK_COUNTRIES then
    [(high_risk_country_penalty, "High-risk country: ".data ++ nationality)]
  else []

/-- Risk signal 3 (sanction matches): one penalty per verdict, EXACT or
not-EXACT. -/
def matchBlock (ms : List MatchRec) : List (Nat × List Char) :=
  ms.map fun m =>
    if m.match_type = MatchType.exact then
      (sanction_match_penalty, "Exact sanction match: ".data ++ m.sanction_name)
    else
      (partial_match_penalty, "Partial sanction match: ".data ++ m.sanction_name)

/-- Risk signal 4 (age): fires when the date of birth parses and the age
is truthy and above the threshold. -/
def ageBlock (today : PyDate) (dob : Option (List Char)) : List (Nat × List Char) :=
  if pyTruthy dob then
    match calculate_age today (dob.getD []) with
    | some a =>
      if a ≠ 0 ∧ a > age_risk_threshold then
        [(15, "High age risk: ".data ++ (toString a).data ++ " years".data)]
      else []
    | none => []
  else []

/-- Risk signal 5 (identifier anomalies): low distinct-character count,
and separately an all-zeros value; both can fire. -/
def idBlock (id_number : List Char) : List (Nat × List Char) :=
  if id_number = [] then []
  else
    (if id_number.dedup.length ≤ 3 then
      [(unusual_id_penalty, "Suspicious ID number pattern".data)]
     else []) ++
    (if id_number = List.replicate id_number.length '0' then
      [(20, "ID number contains only zeros".data)]
     else [])

/-- `RiskCalculator._determine_risk_level`. -/
def determine_risk_level (risk_score : Nat) : RiskLevel :=
  if risk_score ≥ 80 then .CRITICAL
  else if risk_score ≥ 60 then .HIGH
  else if risk_score ≥ 40 then .MEDIUM
  else if risk_score ≥ 20 then .LOW
  else .VERY_LOW

/-- `RiskCalculator.calculate_customer_risk`.  The first statement is
`customer_data.get('occupation', '').lower()`: when the stored occupation
is `None` (a blank optional prompt) this is `None.lower()`, which raises
`AttributeError`; otherwise the five signal blocks fire in order, the
score is the capped sum of the fired penalties, and one factor string is
appended per fired signal. -/
def calculate_customer_risk (today : PyDate) (c : Customer) (ms : List MatchRec) :
    Except PyErr Risk :=
  match c.occupation with
  | none => .error .attributeError
  | some occ0 =>
    let occupation := occ0.map pyLower
    let blocks := pepBlock occupation ++ countryBlock c.nationality_code ++
      matchBlock ms ++ ageBlock today c.date_of_birth ++ idBlock c.id_number
    let risk_score := min ((blocks.map Prod.fst).sum) max_risk_score
    .ok { risk_score := risk_score
          risk_level := determine_risk_level risk_score
          risk_factors := blocks.map Prod.snd }

/-! ## ScreeningOrchestrator (`_determine_screening_result`) -/

/-- `_determine_screening_result`. -/
def determine_screening_result (ms : List MatchRec) (ra : Risk) : ScreeningResult :=
  if ms.isEmpty then .CLEAR
  else if ms.any fun m => m.match_type == MatchType.exact then .REJECTED
  else if ra.risk_level == RiskLevel.HIGH || ra.risk_level == RiskLevel.CRITICAL then
    .REVIEW_REQUIRED
  else if ms.any fun m => m.match_type == MatchType.partialMatch then
    .CLEAR_WITH_WARNING
  else .CLEAR

/-- The spec's disposition rule, written from the spec's words (for the
refinement comparison in claim C1): no retained verdicts → CLEAR; any
EXACT → REJECTED; risk HIGH or CRITICAL → REVIEW_REQUIRED; any PARTIAL →
CLEAR_WITH_WARNING; otherwise CLEAR. -/
def specDisposition (retained : List MatchRec) (ra : Risk) : ScreeningResult :=
  if retained = [] then .CLEAR
  else if retained.any fun m => m.match_type == MatchType.exact then .REJECTED
  else if ra.risk_level = RiskLevel.HIGH ∨ ra.risk_level = RiskLevel.CRITICAL then
    .REVIEW_REQUIRED
  else if retained.any fun m => m.match_type == MatchType.partialMatch then
    .CLEAR_WITH_WARNING
  else .CLEAR

/-! ## Score bounds -/

theorem similarityScore_nil_left (b : List Char) : similarityScore [] b = 0 := by
  simp [similarityScore]

theorem similarityScore_nil_right (a : List Char) : similarityScore a [] = 0 := by
  simp [similarityScore]

theorem similarityScore_nonneg (a b : List Char) : 0 ≤ similarityScore a b := by
  unfold similarityScore
  split
  · exact le_rfl
  · positivity

theorem similarityScore_le_100 (a b : List Char) : similarityScore a b ≤ 100 := by
  unfold similarityScore
  split
  · norm_num
  · rename_i h
    push_neg at h
    obtain ⟨h1, h2⟩ := h
    have hla : 0 < a.length := List.length_pos.2 h1
    have hlb : 0 < b.length := List.length_pos.2 h2
    have hm : (matchSum a b : ℚ) ≤ (a.length : ℚ) := by
      exact_mod_cast matchSum_le_left a b
    have hpos : (0 : ℚ) < (a.length : ℚ) + (b.length : ℚ) := by
      have : (0 : ℚ) < (a.length : ℚ) := by exact_mod_cast hla
      have h2q : (0 : ℚ) ≤ (b.length : ℚ) := by positivity
      linarith
    have hm2 : (matchSum a b : ℚ) ≤ (b.length : ℚ) := by
      exact_mod_cast matchSum_le_right a b
    rw [div_mul_eq_mul_div, div_le_iff₀ hpos]
    linarith

theorem similarityScore_self {s : List Char} (hs : s ≠ []) :
    similarityScore s s = 100 := by
  have hlen : 0 < s.length := List.length_pos.2 hs
  rw [similarityScore, if_neg (by simp [hs])]
  rw [matchSum_self]
  have h0 : ((s.length : ℚ)) ≠ 0 := Nat.cast_ne_zero.2 (by omega)
  field_simp
  ring

theorem le_foldr_max (l : List ℚ) (x : ℚ) (hx : x ∈ l) : x ≤ l.foldr max 0 := by
  induction l with
  | nil => cases hx
  | cons a t ih =>
    rcases List.mem_cons.1 hx with rfl | hmem
    · exact le_max_left _ _
    · exact le_trans (ih hmem) (le_max_right _ _)

theorem foldr_max_le (l : List ℚ) (c : ℚ) (h0 : 0 ≤ c) (h : ∀ x ∈ l, x ≤ c) :
    l.foldr max 0 ≤ c := by
  induction l with
  | nil => exact h0
  | cons a t ih =>
    exact max_le (h a (List.mem_cons_self _ _))
      (ih fun x hx => h x (List.mem_cons_of_mem _ hx))

/-- Claim C7 (counterexample): at `s = ""` the claim's first conjunct
`similarity(s, s) = 100` fails: both-empty input scores 0, not 100. -/
theorem C7_counterexample :
    similarityScore [] [] = 0 ∧ ¬ similarityScore [] [] = 100 := by
  refine ⟨similarityScore_nil_left [], ?_⟩
  rw [similarityScore_nil_left]
  norm_num

/-- Claim C7 (amended): for every nonempty string `s`,
`similarity(s, s) = 100`; for every string `s`, `similarity(s, "") = 0`,
and `similarity("", "") = 0` (no vacuous match). -/
theorem C7_amended (s : List Char) :
    (s ≠ [] → similarityScore s s = 100) ∧
    similarityScore s [] = 0 ∧ similarityScore [] [] = 0 :=
  ⟨fun hs => similarityScore_self hs,
   similarityScore_nil_right s, similarityScore_nil_left []⟩

theorem C7_witness :
    similarityScore ("ab".data) ("ab".data) = 100 ∧
    similarityScore ("ab".data) [] = 0 :=
  ⟨(C7_amended "ab".data).1 (by decide), (C7_amended "ab".data).2.1⟩

/-- Claim C8: when the (length-wise) shorter of two nonempty strings is a
contiguous substring of the longer, the partial ratio is 100: the window
coinciding with the shorter string scores 100, every window scores at
most 100, and the result is the fold of `max` over all windows; hence the
partial ratio is at least the plain ratio on such pairs. -/
theorem C8_contained_window (s1 s2 : List Char) (h1 : s1 ≠ []) (h2 : s2 ≠ [])
    (hsub : ∃ pre post, (if s1.length ≤ s2.length then s2 else s1) =
      pre ++ (if s1.length ≤ s2.length then s1 else s2) ++ post) :
    windowMaxScore s1 s2 = 100 ∧ similarityScore s1 s2 ≤ windowMaxScore s1 s2 := by
  obtain ⟨pre, post, hdecomp⟩ := hsub
  set sh := if s1.length ≤ s2.length then s1 else s2 with hsh
  set lo := if s1.length ≤ s2.length then s2 else s1 with hlo
  have hshne : sh ≠ [] := by
    rw [hsh]; split <;> assumption
  have hm : sh.length ≤ lo.length := by
    rw [hsh, hlo]
    split
    · assumption
    · omega
  have hlolen : lo.length = pre.length + sh.length + post.length := by
    rw [hdecomp]; simp; omega
  have hwin : (lo.drop pre.length).take sh.length = sh := by
    rw [hdecomp, List.append_assoc, List.drop_left, List.take_left]
  have hwinmax : windowMaxScore s1 s2 =
      ((List.range (lo.length - sh.length + 1)).map
        fun i => similarityScore sh ((lo.drop i).take sh.length)).foldr max 0 := by
    rw [windowMaxScore]
  have hmem : (100 : ℚ) ∈ (List.range (lo.length - sh.length + 1)).map
      fun i => similarityScore sh ((lo.drop i).take sh.length) := by
    refine List.mem_map.2 ⟨pre.length, List.mem_range.2 (by omega), ?_⟩
    rw [hwin, similarityScore_self hshne]
  have hub : ∀ x ∈ (List.range (lo.length - sh.length + 1)).map
      fun i => similarityScore sh ((lo.drop i).take sh.length), x ≤ (100 : ℚ) := by
    intro x hx
    rcases List.mem_map.1 hx with ⟨i, _, rfl⟩
    exact similarityScore_le_100 _ _
  have hfold : windowMaxScore s1 s2 = 100 := by
    rw [hwinmax]
    exact le_antisymm (foldr_max_le _ _ (by norm_num) hub) (le_foldr_max _ _ hmem)
  exact ⟨hfold, by rw [hfold]; exact similarityScore_le_100 s1 s2⟩

theorem C8_witness :
    windowMaxScore ("ali".data) ("mohamed ali hassan".data) = 100 ∧
    similarityScore ("ali".data) ("mohamed ali hassan".data) ≤
      windowMaxScore ("ali".data) ("mohamed ali hassan".data) :=
  C8_contained_window _ _ (by decide) (by decide)
    ⟨"mohamed ".data, " hassan".data, by decide⟩

/-! ## Concrete screening instances used by the claims -/

/-- Customer "Ahmed", DOB 1980-05-15 (used by C4 and C10). -/
def cA : Customer :=
  ⟨"Ahmed".data, some "1980-05-15".data, "EG".data, some "engineer".data, "A123456".data⟩

/-- Watchlist entry "Ahced", same DOB, no alias (used by C4 and C10). -/
def saA : Sanction :=
  ⟨1, "Ahced".data, none, some "EG".data, some "1980-05-15".data, some "OFAC".data, "HIGH".data⟩

theorem preBonus_cA : preBonusScore cA saA = 80 := by
  have e1 : normalizeEnglish cA.full_name_en = "ahmed".data := by decide
  have e2 : normalizeEnglish saA.full_name_en = "ahced".data := by decide
  have e3 : normalizeEnglish (saA.alias_en.getD []) = [] := by decide
  have m : matchSum "ahmed".data "ahced".data = 4 := by decide
  have l1 : ("ahmed".data).length = 5 := by decide
  have l2 : ("ahced".data).length = 5 := by decide
  unfold preBonusScore
  rw [e1, e2, e3, if_neg (by simp)]
  rw [similarityScore, if_neg (by decide), m, l1, l2]
  norm_num

/-! ## Projections of `_check_sanction_match` -/

theorem check_name_score (c : Customer) (sa : Sanction) :
    (check_sanction_match c sa).name_match_score =
      similarityScore (normalizeEnglish c.full_name_en) (normalizeEnglish sa.full_name_en) := rfl

theorem check_dob_match (c : Customer) (sa : Sanction) :
    (check_sanction_match c sa).dob_match = dobMatched c sa := rfl

theorem check_match_type (c : Customer) (sa : Sanction) :
    (check_sanction_match c sa).match_type = classifyScore (preBonusScore c sa) := by
  unfold check_sanction_match classifyScore
  by_cases h : preBonusScore c sa ≥ name_match_threshold
  · rw [if_pos h]
    show (if preBonusScore c sa ≥ name_match_threshold then _ else _ : Bool × MatchType).2 = _
    rw [if_pos h]
    rfl
  · rw [if_neg h]
    show (if preBonusScore c sa ≥ name_match_threshold then _ else _ : Bool × MatchType).2 = _
    rw [if_neg h]

theorem check_is_match (c : Customer) (sa : Sanction) :
    (check_sanction_match c sa).is_match =
      decide (preBonusScore c sa ≥ name_match_threshold) := by
  unfold check_sanction_match
  by_cases h : preBonusScore c sa ≥ name_match_threshold
  · show (if preBonusScore c sa ≥ name_match_threshold then _ else _ : Bool × MatchType).1 = _
    rw [if_pos h, decide_eq_true h]
  · show (if preBonusScore c sa ≥ name_match_threshold then _ else _ : Bool × MatchType).1 = _
    rw [if_neg h, decide_eq_false h]

theorem check_match_score (c : Customer) (sa : Sanction) :
    (check_sanction_match c sa).match_score =
      min (if dobMatched c sa then preBonusScore c sa + 20 else preBonusScore c sa) 100 := rfl

/-- Claim C2 (amended): the name score the match evaluator computes is the
plain `similarity_ratio` (not the combined three-metric fuzzy score)
against the primary name, and the classification is decided from the
maximum of that plain ratio and the plain ratio against the single alias
field. -/
theorem C2_amended (c : Customer) (sa : Sanction) :
    (check_sanction_match c sa).name_match_score =
      similarityScore (normalizeEnglish c.full_name_en) (normalizeEnglish sa.full_name_en) ∧
    (check_sanction_match c sa).match_type = classifyScore (preBonusScore c sa) :=
  ⟨check_name_score c sa, check_match_type c sa⟩

/-- Claim C4: when both records carry a date of birth and they are equal,
the stored score is the pre-bonus score plus 20 clamped at 100, while the
classification is still computed from the pre-bonus score (the bonus
never changes it); and the stored score never exceeds 100. -/
theorem C4_dob_bonus :
    (∀ (c : Customer) (sa : Sanction), dobMatched c sa = true →
      (check_sanction_match c sa).match_type = classifyScore (preBonusScore c sa) ∧
      (check_sanction_match c sa).match_score = min (preBonusScore c sa + 20) 100) ∧
    (∀ (c : Customer) (sa : Sanction), (check_sanction_match c sa).match_score ≤ 100) := by
  constructor
  · intro c sa h
    refine ⟨check_match_type c sa, ?_⟩
    rw [check_match_score, h, if_pos rfl]
  · intro c sa
    rw [check_match_score]
    exact min_le_right _ _

/-- Claim C10: when the pre-bonus score is below the threshold but the
dates of birth are present and equal, the verdict is a NO_MATCH with
`is_match` false, yet its stored score is the name score plus 20 (clamped
at 100); concretely, customer name "Ahmed" against entry "Ahced" with
equal dates of birth scores 80 pre-bonus, is not a match, and reports a
score of 100 ≥ threshold. -/
theorem C10_nomatch_bonus :
    (∀ (c : Customer) (sa : Sanction),
      preBonusScore c sa < name_match_threshold → dobMatched c sa = true →
      (check_sanction_match c sa).is_match = false ∧
      (check_sanction_match c sa).match_type = MatchType.noMatch ∧
      (check_sanction_match c sa).match_score = min (preBonusScore c sa + 20) 100) ∧
    ((check_sanction_match cA saA).is_match = false ∧
      (check_sanction_match cA saA).match_score ≥ name_match_threshold) := by
  constructor
  · intro c sa hlt hdob
    refine ⟨?_, ?_, ?_⟩
    · rw [check_is_match, decide_eq_false (not_le.2 hlt)]
    · rw [check_match_type, classifyScore, if_neg (not_le.2 hlt)]
    · rw [check_match_score, hdob, if_pos rfl]
  · constructor
    · rw [check_is_match, preBonus_cA]
      exact decide_eq_false (by rw [name_match_threshold]; norm_num)
    · rw [check_match_score, preBonus_cA]
      have hd : dobMatched cA saA = true := by decide
      rw [hd, if_pos rfl, name_match_threshold]
      norm_num

theorem C10_witness :
    (check_sanction_match cA saA).is_match = false ∧
    (check_sanction_match cA saA).match_type = MatchType.noMatch ∧
    (check_sanction_match cA saA).match_score =
      min (preBonusScore cA saA + 20) 100 :=
  C10_nomatch_bonus.1 cA saA
    (by rw [preBonus_cA, name_match_threshold]; norm_num) (by decide)

theorem C4_witness :
    (check_sanction_match cA saA).match_type = classifyScore (preBonusScore cA saA) ∧
    (check_sanction_match cA saA).match_score =
      min (preBonusScore cA saA + 20) 100 :=
  C4_dob_bonus.1 cA saA (by decide)

/-! ## Claim C2: which score the evaluator actually computes -/

/-- Customer "ab" (used by the C2 counterexample). -/
def cB : Customer := ⟨"ab".data, none, "EG".data, some "x".data, "A123456".data⟩

/-- Watchlist entry "b a", no alias (used by the C2 counterexample). -/
def saB : Sanction := ⟨2, "b a".data, none, none, none, none, "HIGH".data⟩

theorem simScore_ab_ba : similarityScore ("ab".data) ("b a".data) = 40 := by
  have m : matchSum "ab".data "b a".data = 1 := by decide
  have l1 : ("ab".data).length = 2 := by decide
  have l2 : ("b a".data).length = 3 := by decide
  rw [similarityScore, if_neg (by decide), m, l1, l2]
  norm_num

theorem windowScore_ab_ba : windowMaxScore ("ab".data) ("b a".data) = 50 := by
  have hw0 : (("b a".data.drop 0).take 2) = "b ".data := by decide
  have hw1 : (("b a".data.drop 1).take 2) = " a".data := by decide
  have s0 : similarityScore ("ab".data) ("b ".data) = 50 := by
    have m : matchSum "ab".data "b ".data = 1 := by decide
    rw [similarityScore, if_neg (by decide), m]
    norm_num
  have s1 : similarityScore ("ab".data) (" a".data) = 50 := by
    have m : matchSum "ab".data " a".data = 1 := by decide
    rw [similarityScore, if_neg (by decide), m]
    norm_num
  rw [windowMaxScore]
  rw [if_pos (by decide), if_pos (by decide)]
  rw [show ("b a".data).length - ("ab".data).length + 1 = 2 by decide]
  rw [show List.range 2 = [0, 1] from rfl]
  simp only [List.map_cons, List.map_nil, List.foldr_cons, List.foldr_nil,
    show ("ab".data).length = 2 from rfl]
  rw [hw0, hw1, s0, s1]
  norm_num

theorem tokenScore_ab_ba : tokenSortScore ("ab".data) ("b a".data) = 80 := by
  have e1 : unwords (pySorted (pySplit "ab".data)) = "ab".data := by decide
  have e2 : unwords (pySorted (pySplit "b a".data)) = "a b".data := by decide
  have m : matchSum "ab".data "a b".data = 2 := by decide
  rw [tokenSortScore, e1, e2, similarityScore, if_neg (by decide), m]
  norm_num

/-- Claim C2 (counterexample): for customer name "ab" and entry name
"b a", the evaluator's name score (plain ratio, 40) differs from the
combined fuzzy score of `fuzzy_match_names` (max of plain, partial and
token-sort ratios, 80). -/
theorem C2_counterexample :
    (check_sanction_match cB saB).name_match_score ≠
      (fuzzyMatchNames cB.full_name_en saB.full_name_en name_match_threshold).2 := by
  have hname : (check_sanction_match cB saB).name_match_score = 40 := by
    rw [check_name_score]
    rw [show normalizeEnglish cB.full_name_en = "ab".data by decide]
    rw [show normalizeEnglish saB.full_name_en = "b a".data by decide]
    exact simScore_ab_ba
  have hfuzzy : (fuzzyMatchNames cB.full_name_en saB.full_name_en name_match_threshold).2 = 80 := by
    show (fuzzyMatchNames "ab".data "b a".data name_match_threshold).2 = 80
    rw [fuzzyMatchNames, if_neg (by decide)]
    show max (similarityScore (normalizeEnglish "ab".data) (normalizeEnglish "b a".data))
      (max (windowMaxScore (normalizeEnglish "ab".data) (normalizeEnglish "b a".data))
        (tokenSortScore (normalizeEnglish "ab".data) (normalizeEnglish "b a".data))) = 80
    rw [show normalizeEnglish "ab".data = "ab".data by decide]
    rw [show normalizeEnglish "b a".data = "b a".data by decide]
    rw [simScore_ab_ba, windowScore_ab_ba, tokenScore_ab_ba]
    norm_num
  rw [hname, hfuzzy]
  norm_num

/-! ## Claim C1: the screening disposition -/

theorem check_empty_name (c : Customer) (sa : Sanction) (h : c.full_name_en = []) :
    (check_sanction_match c sa).is_match = false := by
  have hpre : preBonusScore c sa = 0 := by
    unfold preBonusScore
    rw [h]
    rw [show normalizeEnglish [] = ([] : List Char) from rfl]
    simp [similarityScore_nil_left]
  rw [check_is_match, hpre]
  exact decide_eq_false (by rw [name_match_threshold]; norm_num)

theorem determine_eq_spec (ms : List MatchRec) (ra : Risk) :
    determine_screening_result ms ra = specDisposition ms ra := by
  unfold determine_screening_result specDisposition
  by_cases h0 : ms = []
  · simp [h0]
  · rw [if_neg (by simpa using h0), if_neg h0]
    by_cases h1 : (ms.any fun m => m.match_type == MatchType.exact) = true
    · rw [if_pos h1, if_pos h1]
    · rw [if_neg h1, if_neg h1]
      by_cases h2 : ra.risk_level = RiskLevel.HIGH ∨ ra.risk_level = RiskLevel.CRITICAL
      · rw [if_pos h2, if_pos (by simpa [Bool.or_eq_true, beq_iff_eq] using h2)]
      · rw [if_neg h2, if_neg (by simpa [Bool.or_eq_true, beq_iff_eq] using h2)]

/-- Claim C1: the disposition is computed over the retained verdicts
(those with `is_match` true) by the spec's ordered rule; and one EXACT
verdict forces REJECTED even at risk level VERY_LOW. -/
theorem C1_disposition :
    (∀ (c : Customer) (cands : List Sanction) (ra : Risk),
      determine_screening_result (perform_sanctions_screening c cands) ra =
        specDisposition ((cands.map (check_sanction_match c)).filter (·.is_match)) ra) ∧
    (∀ (m : MatchRec) (ra : Risk),
      m.match_type = MatchType.exact → ra.risk_level = RiskLevel.VERY_LOW →
      determine_screening_result [m] ra = ScreeningResult.REJECTED) := by
  constructor
  · intro c cands ra
    unfold perform_sanctions_screening
    by_cases hn : c.full_name_en = []
    · rw [if_pos hn]
      have hfilter : (cands.map (check_sanction_match c)).filter (·.is_match) = [] := by
        rw [List.filter_eq_nil_iff]
        intro m hm
        rcases List.mem_map.1 hm with ⟨sa, _, rfl⟩
        simp [check_empty_name c sa hn]
      rw [hfilter]
      rfl
    · rw [if_neg hn]
      exact determine_eq_spec _ ra
  · intro m ra hm _
    unfold determine_screening_result
    rw [if_neg (by simp)]
    rw [if_pos (by simp [hm])]

/-- EXACT verdict used by the C1 witness. -/
def mX : MatchRec :=
  ⟨true, 3, "x y".data, none, MatchType.exact, 100, 100, false, false, "HIGH".data⟩

/-- VERY_LOW assessment used by the C1 witness. -/
def raV : Risk := ⟨0, RiskLevel.VERY_LOW, []⟩

theorem C1_witness :
    determine_screening_result [mX] raV = ScreeningResult.REJECTED :=
  C1_disposition.2 mX raV rfl rfl

/-! ## Claim C3: risk aggregation -/

/-- The fired risk signals in evaluation order, as (penalty, factor)
pairs, for a customer whose occupation is present. -/
def riskSignalList (today : PyDate) (c : Customer) (ms : List MatchRec) :
    List (Nat × List Char) :=
  pepBlock ((c.occupation.getD []).map pyLower) ++ countryBlock c.nationality_code ++
    matchBlock ms ++ ageBlock today c.date_of_birth ++ idBlock c.id_number

theorem determine_risk_level_char (n : Nat) :
    (determine_risk_level n = RiskLevel.CRITICAL ↔ 80 ≤ n) ∧
    (determine_risk_level n = RiskLevel.HIGH ↔ 60 ≤ n ∧ n < 80) ∧
    (determine_risk_level n = RiskLevel.MEDIUM ↔ 40 ≤ n ∧ n < 60) ∧
    (determine_risk_level n = RiskLevel.LOW ↔ 20 ≤ n ∧ n < 40) ∧
    (determine_risk_level n = RiskLevel.VERY_LOW ↔ n < 20) := by
  refine ⟨?_, ?_, ?_, ?_, ?_⟩ <;>
    · unfold determine_risk_level
      split_ifs <;> simp_all <;> omega

/-- Claim C3: on success the risk score is the sum of the fired signal
penalties clamped at `max_risk_score`; the risk level is characterized by
the 80/60/40/20 thresholds; and two PARTIAL verdicts with no other fired
signal give `min(2 * partial_match_penalty, max_risk_score)`. -/
theorem C3_risk_aggregation :
    ∀ (today : PyDate) (c : Customer) (ms : List MatchRec) (ra : Risk),
      calculate_customer_risk today c ms = Except.ok ra →
      (ra.risk_score = min ((riskSignalList today c ms).map Prod.fst).sum max_risk_score ∧
       ((ra.risk_level = RiskLevel.CRITICAL ↔ 80 ≤ ra.risk_score) ∧
        (ra.risk_level = RiskLevel.HIGH ↔ 60 ≤ ra.risk_score ∧ ra.risk_score < 80) ∧
        (ra.risk_level = RiskLevel.MEDIUM ↔ 40 ≤ ra.risk_score ∧ ra.risk_score < 60) ∧
        (ra.risk_level = RiskLevel.LOW ↔ 20 ≤ ra.risk_score ∧ ra.risk_score < 40) ∧
        (ra.risk_level = RiskLevel.VERY_LOW ↔ ra.risk_score < 20)) ∧
       (∀ m1 m2, ms = [m1, m2] →
         m1.match_type = MatchType.partialMatch → m2.match_type = MatchType.partialMatch →
         pepBlock ((c.occupation.getD []).map pyLower) = [] →
         countryBlock c.nationality_code = [] →
         ageBlock today c.date_of_birth = [] →
         idBlock c.id_number = [] →
         ra.risk_score = min (2 * partial_match_penalty) max_risk_score)) := by
  intro today c ms ra hok
  cases hocc : c.occupation with
  | none =>
    rw [calculate_customer_risk, hocc] at hok
    cases hok
  | some occ0 =>
    rw [calculate_customer_risk, hocc] at hok
    dsimp only at hok
    injection hok with hra
    have hsig : riskSignalList today c ms =
        pepBlock (occ0.map pyLower) ++ countryBlock c.nationality_code ++
          matchBlock ms ++ ageBlock today c.date_of_birth ++ idBlock c.id_number := by
      unfold riskSignalList
      rw [hocc]
      rfl
    subst hra
    refine ⟨?_, ?_, ?_⟩
    · rw [hsig]
    · exact determine_risk_level_char _
    · intro m1 m2 hms h1 h2 hpep hcountry hage hid
      subst hms
      have hpep' : pepBlock (occ0.map pyLower) = [] := hpep
      show min (((pepBlock (occ0.map pyLower) ++ countryBlock c.nationality_code ++
        matchBlock [m1, m2] ++ ageBlock today c.date_of_birth ++
        idBlock c.id_number).map Prod.fst).sum) max_risk_score =
        min (2 * partial_match_penalty) max_risk_score
      rw [hpep', hcountry, hage, hid]
      have hmb : matchBlock [m1, m2] =
          [(partial_match_penalty, "Partial sanction match: ".data ++ m1.sanction_name),
           (partial_match_penalty, "Partial sanction match: ".data ++ m2.sanction_name)] := by
        unfold matchBlock
        rw [List.map_cons, List.map_cons, List.map_nil]
        rw [if_neg (by rw [h1]; intro hcon; cases hcon),
          if_neg (by rw [h2]; intro hcon; cases hcon)]
      rw [hmb]
      simp [partial_match_penalty]

def d3 : PyDate := ⟨2026, 10, 12⟩

def c3cust : Customer :=
  ⟨"John Smith".data, none, "US".data, some "accountant".data, "AB1234".data⟩

def pm1 : MatchRec :=
  ⟨true, 4, "p one".data, none, MatchType.partialMatch, 90, 90, false, false, "HIGH".data⟩

def pm2 : MatchRec :=
  ⟨true, 5, "p two".data, none, MatchType.partialMatch, 90, 90, false, false, "HIGH".data⟩

def ra3 : Risk :=
  ⟨100, RiskLevel.CRITICAL,
   ["Partial sanction match: p one".data, "Partial sanction match: p two".data]⟩

theorem C3_witness :
    ra3.risk_score = min (2 * partial_match_penalty) max_risk_score :=
  (C3_risk_aggregation d3 c3cust [pm1, pm2] ra3 (by rfl)).2.2 pm1 pm2 rfl rfl rfl
    (by decide) (by decide) rfl (by decide)

/-! ## Claim C5: the engine can raise -/

/-- Customer with a blank (None) occupation, as stored by
`_collect_customer_information` for an empty optional prompt. -/
def c5none : Customer := ⟨"John Smith".data, none, "US".data, none, "AB1234".data⟩

/-- Claim C5 (failing evaluation): with occupation `None`,
`calculate_customer_risk` evaluates `None.lower()` and raises
`AttributeError` instead of returning a risk assessment, so the screening
run aborts without a disposition. -/
theorem C5_occupation_none_raises :
    calculate_customer_risk d3 c5none [] = Except.error PyErr.attributeError := rfl

/-! ## Claim C6: the all-zeros identifier -/

theorem dedup_all_eq {l : List Char} {x : Char} (hne : l ≠ []) (h : ∀ c ∈ l, c = x) :
    l.dedup = [x] := by
  induction l with
  | nil => cases hne rfl
  | cons a t ih =>
    have ha : a = x := h a (List.mem_cons_self _ _)
    subst ha
    by_cases ht : t = []
    · subst ht
      simp
    · have hmem : a ∈ t := by
        obtain ⟨b, t', rfl⟩ := List.exists_cons_of_ne_nil ht
        have hb : b = a := h b (by simp)
        simp [hb]
      rw [List.dedup_cons_of_mem hmem]
      exact ih ht (fun ch hc => h ch (List.mem_cons_of_mem _ hc))

/-- Claim C6: a nonempty all-zeros identifier fires both identifier
signals: the low-cardinality signal (unusual_id_penalty = 20) and the
all-zeros signal (a further fixed 20), contributing 40 before the clamp,
with one factor string per fired signal. -/
theorem C6_zero_id :
    ∀ (idn : List Char), idn ≠ [] → (∀ ch ∈ idn, ch = '0') →
      idBlock idn =
        [(unusual_id_penalty, "Suspicious ID number pattern".data),
         (20, "ID number contains only zeros".data)] ∧
      ((idBlock idn).map Prod.fst).sum = 40 := by
  intro idn hne hall
  have hded : idn.dedup = ['0'] := dedup_all_eq hne hall
  have hzeros : idn = List.replicate idn.length '0' :=
    List.eq_replicate_iff.2 ⟨rfl, hall⟩
  have hblock : idBlock idn =
      [(unusual_id_penalty, "Suspicious ID number pattern".data),
       (20, "ID number contains only zeros".data)] := by
    unfold idBlock
    rw [if_neg hne, hded, if_pos (by decide), if_pos hzeros]
    rfl
  refine ⟨hblock, ?_⟩
  rw [hblock]
  decide

theorem C6_witness :
    idBlock ("000".data) =
      [(unusual_id_penalty, "Suspicious ID number pattern".data),
       (20, "ID number contains only zeros".data)] :=
  (C6_zero_id "000".data (by decide) (by decide)).1

/-! ## Character-class lemmas -/

theorem char_toNat_ofNat {n : Nat} (h : n < 55296) : (Char.ofNat n).toNat = n := by
  rw [Char.ofNat, dif_pos (Or.inl h)]
  rfl

theorem pyLower_idem (c : Char) : pyLower (pyLower c) = pyLower c := by
  by_cases h : 65 ≤ c.toNat ∧ c.toNat ≤ 90
  · have h1 : pyLower c = Char.ofNat (c.toNat + 32) := by rw [pyLower, if_pos h]
    have ht : (Char.ofNat (c.toNat + 32)).toNat = c.toNat + 32 :=
      char_toNat_ofNat (by omega)
    rw [h1, pyLower, if_neg (by rw [ht]; omega)]
  · have h1 : pyLower c = c := by rw [pyLower, if_neg h]
    rw [h1, h1]

theorem word_not_space {c : Char} (h : isWordChar c = true) : isSpaceChar c = false := by
  by_contra hs
  rw [Bool.not_eq_false] at hs
  unfold isSpaceChar at hs
  simp only [Bool.or_eq_true, beq_iff_eq] at hs
  rcases hs with ((((rfl | rfl) | rfl) | rfl) | rfl) | rfl <;> exact absurd h (by decide)

theorem map_fixed {f : Char → Char} : ∀ {l : List Char}, (∀ c ∈ l, f c = c) → l.map f = l
  | [], _ => rfl
  | c :: rest, h => by
    rw [List.map_cons, h c (List.mem_cons_self _ _),
      map_fixed fun d hd => h d (List.mem_cons_of_mem _ hd)]

/-! ## takeWhile / dropWhile over all-satisfying prefixes -/

theorem takeWhile_append_all {p : Char → Bool} :
    ∀ {w : List Char} (z : List Char), (∀ c ∈ w, p c = true) →
      (w ++ z).takeWhile p = w ++ z.takeWhile p
  | [], _, _ => rfl
  | x :: w', z, h => by
    rw [List.cons_append, List.takeWhile_cons_of_pos (h x (List.mem_cons_self _ _)),
      takeWhile_append_all z fun c hc => h c (List.mem_cons_of_mem _ hc)]
    rfl

theorem dropWhile_append_all {p : Char → Bool} :
    ∀ {w : List Char} (z : List Char), (∀ c ∈ w, p c = true) →
      (w ++ z).dropWhile p = z.dropWhile p
  | [], _, _ => rfl
  | x :: w', z, h => by
    rw [List.cons_append, List.dropWhile_cons_of_pos (h x (List.mem_cons_self _ _)),
      dropWhile_append_all z fun c hc => h c (List.mem_cons_of_mem _ hc)]

theorem dropWhile_shape (p : Char → Bool) :
    ∀ l : List Char, l.dropWhile p = [] ∨
      ∃ d r, l.dropWhile p = d :: r ∧ p d = false
  | [] => Or.inl rfl
  | c :: rest => by
    by_cases hc : p c = true
    · rw [List.dropWhile_cons_of_pos hc]
      exact dropWhile_shape p rest
    · rw [List.dropWhile_cons_of_neg (by simp [hc])]
      exact Or.inr ⟨c, rest, rfl, by simpa using hc⟩

/-! ## Equations for the run scanner -/

theorem runsGo_acc (p : Char → Bool) :
    ∀ (s acc : List Char), acc ≠ [] →
      runsGo p acc s = (acc.reverse ++ s.takeWhile p) :: runsGo p [] (s.dropWhile p)
  | [], acc, ha => by
    simp [runsGo, ha]
  | c :: rest, acc, ha => by
    by_cases hc : p c = true
    · show (if p c then runsGo p (c :: acc) rest else _) = _
      rw [if_pos hc, runsGo_acc p rest (c :: acc) (by simp),
        List.takeWhile_cons_of_pos hc, List.dropWhile_cons_of_pos hc]
      simp [List.append_assoc]
    · show (if p c then _ else if acc = [] then _ else acc.reverse :: runsGo p [] rest) = _
      rw [if_neg (by simp [hc]), if_neg ha,
        List.takeWhile_cons_of_neg (by simp [hc]), List.dropWhile_cons_of_neg (by simp [hc])]
      show _ = (acc.reverse ++ []) :: runsGo p [] (c :: rest)
      rw [List.append_nil]
      show _ = _ :: (if p c then runsGo p [c] rest else if ([] : List Char) = [] then runsGo p [] rest else _)
      rw [if_neg (by simp [hc]), if_pos rfl]

theorem runsBy_cons_pos {p : Char → Bool} {c : Char} (rest : List Char) (hc : p c = true) :
    runsBy p (c :: rest) = (c :: rest.takeWhile p) :: runsBy p (rest.dropWhile p) := by
  show (if p c then runsGo p [c] rest else _) = _
  rw [if_pos hc, runsGo_acc p rest [c] (by simp)]
  rfl

theorem runsBy_cons_neg {p : Char → Bool} {c : Char} (rest : List Char) (hc : p c = false) :
    runsBy p (c :: rest) = runsBy p rest := by
  show (if p c then _ else if ([] : List Char) = [] then runsGo p [] rest else _) = _
  rw [if_neg (by simp [hc]), if_pos rfl]
  rfl

/-- Every run is nonempty, all its characters satisfy `p`, and all its
characters come from the scanned string. -/
theorem runsBy_sound (p : Char → Bool) :
    ∀ (n : Nat) (s : List Char), s.length ≤ n →
      ∀ w ∈ runsBy p s, w ≠ [] ∧ ∀ c ∈ w, p c = true ∧ c ∈ s
  | 0, s, hs => by
    have : s = [] := List.eq_nil_of_length_eq_zero (Nat.le_zero.1 hs)
    subst this
    intro w hw
    cases hw
  | n + 1, s, hs => by
    cases s with
    | nil =>
      intro w hw
      cases hw
    | cons c rest =>
      by_cases hc : p c = true
      · rw [runsBy_cons_pos rest hc]
        intro w hw
        rcases List.mem_cons.1 hw with rfl | hmem
        · refine ⟨List.cons_ne_nil _ _, ?_⟩
          intro d hd
          rcases List.mem_cons.1 hd with rfl | hd'
          · exact ⟨hc, List.mem_cons_self _ _⟩
          · exact ⟨List.mem_takeWhile_imp hd',
              List.mem_cons_of_mem _ ((List.takeWhile_prefix p).sublist.mem hd')⟩
        · have hlen : (rest.dropWhile p).length ≤ n :=
            le_trans (List.dropWhile_sublist p).length_le (by simpa using hs)
          obtain ⟨hne, hall⟩ := runsBy_sound p n (rest.dropWhile p) hlen w hmem
          refine ⟨hne, fun d hd => ?_⟩
          obtain ⟨hp, hmem'⟩ := hall d hd
          exact ⟨hp, List.mem_cons_of_mem _ ((List.dropWhile_sublist p).mem hmem')⟩
      · rw [runsBy_cons_neg rest (by simpa using hc)]
        intro w hw
        obtain ⟨hne, hall⟩ := runsBy_sound p n rest (by simpa using hs) w hw
        refine ⟨hne, fun d hd => ?_⟩
        obtain ⟨hp, hmem'⟩ := hall d hd
        exact ⟨hp, List.mem_cons_of_mem _ hmem'⟩

/-- Runs of a string made of all-`p` words joined by a single separator
that fails `p`: the runs are exactly the words. -/
theorem runsBy_append_word {p : Char → Bool} {w : List Char} (z : List Char)
    (hne : w ≠ []) (hall : ∀ c ∈ w, p c = true) :
    runsBy p (w ++ z) = (w ++ z.takeWhile p) :: runsBy p (z.dropWhile p) := by
  cases w with
  | nil => cases hne rfl
  | cons x w' =>
    rw [List.cons_append, runsBy_cons_pos _ (hall x (List.mem_cons_self _ _))]
    rw [takeWhile_append_all z fun c hc => hall c (List.mem_cons_of_mem _ hc)]
    rw [dropWhile_append_all z fun c hc => hall c (List.mem_cons_of_mem _ hc)]
    rfl

/-! ## Equations for the title scanner -/

theorem titleHit_parts {t : List Char} {pw : Bool} {s : List Char}
    (h : titleHit t pw s = true) :
    t ≠ [] ∧ pw = false ∧ t.isPrefixOf s = true ∧ afterOk t s = true := by
  unfold titleHit at h
  simp only [Bool.and_eq_true, Bool.not_eq_true'] at h
  refine ⟨?_, h.1.1.2, h.1.2, h.2⟩
  intro hnil
  subst hnil
  simpa using h.1.1.1

theorem prefix_len_le {t s : List Char} (h : t.isPrefixOf s = true) :
    t.length ≤ s.length :=
  (List.isPrefixOf_iff_prefix.1 h).length_le

theorem eatDotSpaces_len (x : List Char) : (eatDotSpaces x).1.length ≤ x.length := by
  cases x with
  | nil => exact le_rfl
  | cons c r =>
    simp only [eatDotSpaces]
    split_ifs
    · exact le_trans (List.dropWhile_sublist _).length_le (by simp)
    · exact le_trans (List.dropWhile_sublist _).length_le (by simp)
    · exact le_rfl

theorem subTitleF_stable (t : List Char) :
    ∀ (f1 f2 : Nat) (pw : Bool) (s : List Char), s.length ≤ f1 → s.length ≤ f2 →
      subTitleF f1 t pw s = subTitleF f2 t pw s
  | 0, f2, pw, s, h1, _ => by
    have hs : s = [] := List.eq_nil_of_length_eq_zero (Nat.le_zero.1 h1)
    subst hs
    cases f2 <;> rfl
  | f1 + 1, 0, pw, s, _, h2 => by
    have hs : s = [] := List.eq_nil_of_length_eq_zero (Nat.le_zero.1 h2)
    subst hs
    rfl
  | f1 + 1, f2 + 1, pw, s, h1, h2 => by
    cases s with
    | nil => rfl
    | cons c rest =>
      simp only [subTitleF]
      simp only [List.length_cons] at h1 h2
      by_cases h : titleHit t pw (c :: rest) = true
      · rw [if_pos h, if_pos h]
        obtain ⟨hne, -, hpre, -⟩ := titleHit_parts h
        have htl : 1 ≤ t.length := List.length_pos.2 hne
        have hsl : t.length ≤ rest.length + 1 := by simpa using prefix_len_le hpre
        have hlen : (eatDotSpaces ((c :: rest).drop t.length)).1.length ≤ rest.length := by
          have := eatDotSpaces_len ((c :: rest).drop t.length)
          simp only [List.length_drop, List.length_cons] at this
          omega
        exact subTitleF_stable t f1 f2 _ _ (by omega) (by omega)
      · rw [if_neg h, if_neg h]
        exact congrArg (c :: ·) (subTitleF_stable t f1 f2 _ rest (by omega) (by omega))

theorem stripTitleP_nil (t : List Char) (pw : Bool) : stripTitleP t pw [] = [] := rfl

theorem stripTitleP_cons_hit {t : List Char} {pw : Bool} {c : Char} {rest : List Char}
    (h : titleHit t pw (c :: rest) = true) :
    stripTitleP t pw (c :: rest) =
      stripTitleP t (eatDotSpaces ((c :: rest).drop t.length)).2
        (eatDotSpaces ((c :: rest).drop t.length)).1 := by
  obtain ⟨hne, -, hpre, -⟩ := titleHit_parts h
  have htl : 1 ≤ t.length := List.length_pos.2 hne
  have hsl : t.length ≤ rest.length + 1 := by simpa using prefix_len_le hpre
  have hlen : (eatDotSpaces ((c :: rest).drop t.length)).1.length ≤ rest.length := by
    have := eatDotSpaces_len ((c :: rest).drop t.length)
    simp only [List.length_drop, List.length_cons] at this
    omega
  show subTitleF (rest.length + 1) t pw (c :: rest) = _
  simp only [subTitleF]
  rw [if_pos h]
  exact subTitleF_stable t _ _ _ _ hlen le_rfl

theorem stripTitleP_cons_miss {t : List Char} {pw : Bool} {c : Char} {rest : List Char}
    (h : titleHit t pw (c :: rest) = false) :
    stripTitleP t pw (c :: rest) = c :: stripTitleP t (isWordChar c) rest := by
  show subTitleF (rest.length + 1) t pw (c :: rest) = _
  simp only [subTitleF]
  rw [if_neg (by simp [h])]
  rfl

theorem prefix_head_word {t : List Char} (hne : t ≠ [])
    (hw : ∀ c ∈ t, isWordChar c = true) {c : Char} (hc : isWordChar c = false)
    (rest : List Char) : t.isPrefixOf (c :: rest) = false := by
  cases t with
  | nil => cases hne rfl
  | cons t0 ts =>
    by_contra hp
    rw [Bool.not_eq_false] at hp
    obtain ⟨u, hu⟩ := List.isPrefixOf_iff_prefix.1 hp
    rw [List.cons_append] at hu
    injection hu with h1 _
    subst h1
    exact absurd (hw t0 (List.mem_cons_self _ _)) (by simp [hc])

/-- With a word character just before the scan position, the scan copies
the current word-character run unchanged and continues in the `pw = false`
state after it. -/
theorem stripTitleP_true (t : List Char) (hne : t ≠ [])
    (hw : ∀ c ∈ t, isWordChar c = true) :
    ∀ (n : Nat) (s : List Char), s.length ≤ n →
      stripTitleP t true s =
        s.takeWhile isWordChar ++ stripTitleP t false (s.dropWhile isWordChar)
  | 0, s, hs => by
    have : s = [] := List.eq_nil_of_length_eq_zero (Nat.le_zero.1 hs)
    subst this
    rfl
  | n + 1, s, hs => by
    cases s with
    | nil => rfl
    | cons c rest =>
      have hmiss : titleHit t true (c :: rest) = false := by
        simp [titleHit]
      by_cases hc : isWordChar c = true
      · rw [stripTitleP_cons_miss hmiss, hc,
          stripTitleP_true t hne hw n rest (by simpa using hs),
          List.takeWhile_cons_of_pos hc, List.dropWhile_cons_of_pos hc]
        rfl
      · have hcf : isWordChar c = false := by simpa using hc
        have hmiss2 : titleHit t false (c :: rest) = false := by
          unfold titleHit
          rw [prefix_head_word hne hw hcf rest]
          simp
        rw [stripTitleP_cons_miss hmiss, hcf,
          List.takeWhile_cons_of_neg (by simp [hcf]),
          List.dropWhile_cons_of_neg (by simp [hcf]),
          List.nil_append, stripTitleP_cons_miss hmiss2, hcf]

/-! ## One substitution pass removes exactly the whole-word title runs -/

theorem space_not_word {c : Char} (h : isSpaceChar c = true) : isWordChar c = false := by
  by_contra hw
  rw [Bool.not_eq_false] at hw
  rw [word_not_space hw] at h
  cases h

theorem hit_decomp {t : List Char} (hw : ∀ c ∈ t, isWordChar c = true)
    {s : List Char} (hpre : t.isPrefixOf s = true) (haft : afterOk t s = true) :
    s.takeWhile isWordChar = t ∧ s.dropWhile isWordChar = s.drop t.length := by
  obtain ⟨u, hu⟩ := List.isPrefixOf_iff_prefix.1 hpre
  subst hu
  have hdrop : (t ++ u).drop t.length = u := List.drop_left t u
  unfold afterOk at haft
  rw [hdrop] at haft
  have hu2 : u.takeWhile isWordChar = [] ∧ u.dropWhile isWordChar = u := by
    cases u with
    | nil => exact ⟨rfl, rfl⟩
    | cons d r =>
      have hd : isWordChar d = false := by simpa using haft
      exact ⟨List.takeWhile_cons_of_neg (by simp [hd]),
        List.dropWhile_cons_of_neg (by simp [hd])⟩
  refine ⟨?_, ?_⟩
  · rw [takeWhile_append_all u hw, hu2.1, List.append_nil]
  · rw [dropWhile_append_all u hw, hu2.2, hdrop]

/-- The output of a `pw = false` scan on input that is empty or starts
with a non-word character again is empty or starts with a non-word
character. -/
theorem stripTitleP_head (t : List Char) (hne : t ≠ [])
    (hw : ∀ c ∈ t, isWordChar c = true) (z : List Char)
    (hz : z = [] ∨ ∃ d r, z = d :: r ∧ isWordChar d = false) :
    stripTitleP t false z = [] ∨
      ∃ d r, stripTitleP t false z = d :: r ∧ isWordChar d = false := by
  rcases hz with rfl | ⟨d, r, rfl, hd⟩
  · exact Or.inl rfl
  · have hmiss : titleHit t false (d :: r) = false := by
      unfold titleHit
      rw [prefix_head_word hne hw hd r]
      simp
    rw [stripTitleP_cons_miss hmiss]
    exact Or.inr ⟨d, _, rfl, hd⟩

theorem runsBy_dropWhile_space :
    ∀ x : List Char, runsBy isWordChar (x.dropWhile isSpaceChar) = runsBy isWordChar x
  | [] => rfl
  | c :: r => by
    by_cases hc : isSpaceChar c = true
    · rw [List.dropWhile_cons_of_pos hc, runsBy_dropWhile_space r,
        runsBy_cons_neg r (space_not_word hc)]
    · rw [List.dropWhile_cons_of_neg (by simp [hc])]

theorem drop_takeWhile_len (p : Char → Bool) :
    ∀ l : List Char, l.drop (l.takeWhile p).length = l.dropWhile p
  | [] => rfl
  | c :: r => by
    by_cases hc : p c = true
    · rw [List.takeWhile_cons_of_pos hc, List.dropWhile_cons_of_pos hc]
      show r.drop (r.takeWhile p).length = _
      exact drop_takeWhile_len p r
    · rw [List.takeWhile_cons_of_neg (by simp [hc]),
        List.dropWhile_cons_of_neg (by simp [hc])]
      rfl

theorem titleHit_of_headrun {t : List Char} {c : Char} {rest : List Char}
    (heq : c :: rest.takeWhile isWordChar = t) :
    titleHit t false (c :: rest) = true := by
  subst heq
  unfold titleHit
  have hpre : (c :: rest.takeWhile isWordChar).isPrefixOf (c :: rest) = true :=
    List.isPrefixOf_iff_prefix.2 ⟨rest.dropWhile isWordChar,
      by rw [List.cons_append, List.takeWhile_append_dropWhile]⟩
  have hdrop : (c :: rest).drop (c :: rest.takeWhile isWordChar).length =
      rest.dropWhile isWordChar := by
    show rest.drop (rest.takeWhile isWordChar).length = _
    exact drop_takeWhile_len _ rest
  have haft : afterOk (c :: rest.takeWhile isWordChar) (c :: rest) = true := by
    unfold afterOk
    rw [hdrop]
    rcases dropWhile_shape isWordChar rest with h0 | ⟨d, r, hdr, hd⟩
    · rw [h0]
    · rw [hdr]
      simp [hd]
  rw [hpre, haft]
  simp

/-- Key lemma: one `re.sub(rf'\b{t}\b\.?\s*', '', ·)` pass leaves the
word-character runs unchanged except that every run equal to `t`
disappears. -/
theorem strip_runs (t : List Char) (hne : t ≠ [])
    (hw : ∀ c ∈ t, isWordChar c = true) :
    ∀ (n : Nat) (s : List Char), s.length ≤ n →
      runsBy isWordChar (stripTitleP t false s) =
        (runsBy isWordChar s).filter fun w => decide (w ≠ t)
  | 0, s, hs => by
    have : s = [] := List.eq_nil_of_length_eq_zero (Nat.le_zero.1 hs)
    subst this
    rfl
  | n + 1, s, hs => by
    cases s with
    | nil => rfl
    | cons c rest =>
      simp only [List.length_cons] at hs
      by_cases hc : isWordChar c = true
      · by_cases hhit : titleHit t false (c :: rest) = true
        · obtain ⟨-, -, hpre, haft⟩ := titleHit_parts hhit
          obtain ⟨htake, hdropw⟩ := hit_decomp hw hpre haft
          have htl : 1 ≤ t.length := List.length_pos.2 hne
          have hsl : t.length ≤ rest.length + 1 := by simpa using prefix_len_le hpre
          have hs1len : ((c :: rest).drop t.length).length ≤ n := by
            simp only [List.length_drop, List.length_cons]
            omega
          have hruns : runsBy isWordChar (c :: rest) =
              t :: runsBy isWordChar ((c :: rest).drop t.length) := by
            rw [runsBy_cons_pos rest hc]
            have h1 : c :: rest.takeWhile isWordChar = t := by
              rw [← List.takeWhile_cons_of_pos hc]
              exact htake
            have h2 : rest.dropWhile isWordChar = (c :: rest).drop t.length := by
              rw [← List.dropWhile_cons_of_pos hc]
              exact hdropw
            rw [h1, h2]
          rw [stripTitleP_cons_hit hhit, hruns, List.filter_cons,
            if_neg (by simp)]
          cases hs1 : (c :: rest).drop t.length with
          | nil => rfl
          | cons d r =>
            have hd : isWordChar d = false := by
              unfold afterOk at haft
              rw [hs1] at haft
              simpa using haft
            rw [hs1] at hs1len
            simp only [List.length_cons] at hs1len
            by_cases hdot : d = '.'
            · subst hdot
              have heat : eatDotSpaces ('.' :: r) = (r.dropWhile isSpaceChar, false) := by
                simp [eatDotSpaces]
              rw [heat]
              rw [strip_runs t hne hw n (r.dropWhile isSpaceChar)
                (le_trans (List.dropWhile_sublist _).length_le (by omega))]
              rw [runsBy_dropWhile_space r, runsBy_cons_neg r (by decide)]
            · by_cases hsp : isSpaceChar d = true
              · have heat : eatDotSpaces (d :: r) = (r.dropWhile isSpaceChar, false) := by
                  simp [eatDotSpaces, hdot, hsp]
                rw [heat]
                rw [strip_runs t hne hw n (r.dropWhile isSpaceChar)
                  (le_trans (List.dropWhile_sublist _).length_le (by omega))]
                rw [runsBy_dropWhile_space r, runsBy_cons_neg r (space_not_word hsp)]
              · have heat : eatDotSpaces (d :: r) = (d :: r, true) := by
                  simp [eatDotSpaces, hdot, hsp]
                rw [heat]
                rw [stripTitleP_true t hne hw (n + 1) (d :: r) (by simp; omega)]
                rw [List.takeWhile_cons_of_neg (by simp [hd]),
                  List.dropWhile_cons_of_neg (by simp [hd]), List.nil_append]
                exact strip_runs t hne hw n (d :: r) (by simp; omega)
        · have hhf : titleHit t false (c :: rest) = false := by
            simpa using hhit
          rw [stripTitleP_cons_miss hhf, hc,
            stripTitleP_true t hne hw n rest (by omega)]
          have hA : ∀ x ∈ rest.takeWhile isWordChar, isWordChar x = true :=
            fun x hx => List.mem_takeWhile_imp hx
          have hBshape := stripTitleP_head t hne hw (rest.dropWhile isWordChar)
            (dropWhile_shape _ rest)
          have hBtake : (stripTitleP t false (rest.dropWhile isWordChar)).takeWhile
              isWordChar = [] := by
            rcases hBshape with hB0 | ⟨d, r, hB, hd⟩
            · rw [hB0]
              rfl
            · rw [hB, List.takeWhile_cons_of_neg (by simp [hd])]
          have hBdrop : (stripTitleP t false (rest.dropWhile isWordChar)).dropWhile
              isWordChar = stripTitleP t false (rest.dropWhile isWordChar) := by
            rcases hBshape with hB0 | ⟨d, r, hB, hd⟩
            · rw [hB0]
              rfl
            · rw [hB, List.dropWhile_cons_of_neg (by simp [hd])]
          rw [runsBy_cons_pos _ hc]
          rw [takeWhile_append_all _ hA, hBtake, List.append_nil]
          rw [dropWhile_append_all _ hA, hBdrop]
          rw [strip_runs t hne hw n (rest.dropWhile isWordChar)
            (le_trans (List.dropWhile_sublist _).length_le (by omega))]
          rw [runsBy_cons_pos rest hc, List.filter_cons]
          have hkeep : (c :: rest.takeWhile isWordChar) ≠ t := by
            intro heq
            rw [titleHit_of_headrun heq] at hhf
            cases hhf
          rw [if_pos (by simp [hkeep])]
      · have hcf : isWordChar c = false := by simpa using hc
        have hmiss : titleHit t false (c :: rest) = false := by
          unfold titleHit
          rw [prefix_head_word hne hw hcf rest]
          simp
        rw [stripTitleP_cons_miss hmiss, hcf, runsBy_cons_neg _ hcf,
          runsBy_cons_neg rest hcf]
        exact strip_runs t hne hw n rest (by omega)

/-- When no word-character run of `s` equals `t`, the substitution pass is
the identity. -/
theorem strip_id (t : List Char) (hne : t ≠ [])
    (hw : ∀ c ∈ t, isWordChar c = true) :
    ∀ (n : Nat) (s : List Char), s.length ≤ n →
      t ∉ runsBy isWordChar s → stripTitleP t false s = s
  | 0, s, hs, _ => by
    have : s = [] := List.eq_nil_of_length_eq_zero (Nat.le_zero.1 hs)
    subst this
    rfl
  | n + 1, s, hs, hmem => by
    cases s with
    | nil => rfl
    | cons c rest =>
      simp only [List.length_cons] at hs
      by_cases hc : isWordChar c = true
      · by_cases hhit : titleHit t false (c :: rest) = true
        · exfalso
          obtain ⟨-, -, hpre, haft⟩ := titleHit_parts hhit
          obtain ⟨htake, -⟩ := hit_decomp hw hpre haft
          apply hmem
          rw [runsBy_cons_pos rest hc]
          have h1 : c :: rest.takeWhile isWordChar = t := by
            rw [← List.takeWhile_cons_of_pos hc]
            exact htake
          rw [h1]
          exact List.mem_cons_self _ _
        · have hhf : titleHit t false (c :: rest) = false := by simpa using hhit
          rw [stripTitleP_cons_miss hhf, hc,
            stripTitleP_true t hne hw n rest (by omega)]
          have hmem2 : t ∉ runsBy isWordChar (rest.dropWhile isWordChar) := by
            intro hmem2
            apply hmem
            rw [runsBy_cons_pos rest hc]
            exact List.mem_cons_of_mem _ hmem2
          rw [strip_id t hne hw n (rest.dropWhile isWordChar)
            (le_trans (List.dropWhile_sublist _).length_le (by omega)) hmem2]
          rw [List.takeWhile_append_dropWhile]
      · have hcf : isWordChar c = false := by simpa using hc
        have hmiss : titleHit t false (c :: rest) = false := by
          unfold titleHit
          rw [prefix_head_word hne hw hcf rest]
          simp
        rw [stripTitleP_cons_miss hmiss, hcf]
        have hmem2 : t ∉ runsBy isWordChar rest := by
          rw [runsBy_cons_neg rest hcf] at hmem
          exact hmem
        rw [strip_id t hne hw n rest (by omega) hmem2]

/-! ## Joining words and splitting again -/

theorem mem_unwords : ∀ {ws : List (List Char)} {c : Char},
    c ∈ unwords ws → c = ' ' ∨ ∃ w ∈ ws, c ∈ w
  | [], c, h => by cases h
  | [w], c, h => Or.inr ⟨w, List.mem_cons_self _ _, h⟩
  | w :: w2 :: ws, c, h => by
    rcases List.mem_append.1 h with h1 | h2
    · exact Or.inr ⟨w, List.mem_cons_self _ _, h1⟩
    · rcases List.mem_cons.1 h2 with rfl | h3
      · exact Or.inl rfl
      · rcases mem_unwords h3 with h4 | ⟨w', hw', hc⟩
        · exact Or.inl h4
        · exact Or.inr ⟨w', List.mem_cons_of_mem _ hw', hc⟩

theorem runsBy_unwords {p : Char → Bool} (hsp : p ' ' = false) :
    ∀ ws : List (List Char), (∀ w ∈ ws, w ≠ [] ∧ ∀ c ∈ w, p c = true) →
      runsBy p (unwords ws) = ws
  | [], _ => rfl
  | [w], h => by
    obtain ⟨hne, hall⟩ := h w (List.mem_cons_self _ _)
    show runsBy p w = [w]
    rw [← List.append_nil w, runsBy_append_word [] hne hall]
    simp [runsBy, runsGo]
  | w :: w2 :: ws, h => by
    obtain ⟨hne, hall⟩ := h w (List.mem_cons_self _ _)
    show runsBy p (w ++ ' ' :: unwords (w2 :: ws)) = w :: w2 :: ws
    rw [runsBy_append_word (' ' :: unwords (w2 :: ws)) hne hall,
      List.takeWhile_cons_of_neg (by simp [hsp]),
      List.dropWhile_cons_of_neg (by simp [hsp]), List.append_nil,
      runsBy_cons_neg _ hsp,
      runsBy_unwords hsp (w2 :: ws) fun w' hw' => h w' (List.mem_cons_of_mem _ hw')]

theorem unwords_ne_nil : ∀ {ws : List (List Char)}, ws ≠ [] →
    (∀ w ∈ ws, w ≠ []) → unwords ws ≠ []
  | [], h, _ => absurd rfl h
  | [w], _, h2 => h2 w (List.mem_cons_self _ _)
  | w :: w2 :: ws, _, h2 => by
    show w ++ ' ' :: unwords (w2 :: ws) ≠ []
    simp

theorem unwords_head_word : ∀ {ws : List (List Char)}, ws ≠ [] →
    (∀ w ∈ ws, w ≠ [] ∧ ∀ c ∈ w, isWordChar c = true) →
    ∃ d r, unwords ws = d :: r ∧ isWordChar d = true
  | [], h, _ => absurd rfl h
  | [w], _, h2 => by
    obtain ⟨hne, hall⟩ := h2 w (List.mem_cons_self _ _)
    cases w with
    | nil => cases hne rfl
    | cons d r => exact ⟨d, r, rfl, hall d (List.mem_cons_self _ _)⟩
  | w :: w2 :: ws, _, h2 => by
    obtain ⟨hne, hall⟩ := h2 w (List.mem_cons_self _ _)
    cases w with
    | nil => cases hne rfl
    | cons d r =>
      exact ⟨d, r ++ ' ' :: unwords (w2 :: ws), rfl, hall d (List.mem_cons_self _ _)⟩

theorem unwords_last_word : ∀ {ws : List (List Char)}, ws ≠ [] →
    (∀ w ∈ ws, w ≠ [] ∧ ∀ c ∈ w, isWordChar c = true) →
    ∃ d r, (unwords ws).reverse = d :: r ∧ isWordChar d = true
  | [], h, _ => absurd rfl h
  | [w], _, h2 => by
    obtain ⟨hne, hall⟩ := h2 w (List.mem_cons_self _ _)
    cases hw : w.reverse with
    | nil => exact absurd (by simpa using congrArg List.reverse hw) hne
    | cons d r =>
      refine ⟨d, r, hw, hall d ?_⟩
      have : d ∈ w.reverse := by rw [hw]; exact List.mem_cons_self _ _
      simpa using this
  | w :: w2 :: ws, _, h2 => by
    obtain ⟨d, r, hdr, hd⟩ := unwords_last_word (List.cons_ne_nil _ _)
      fun w' hw' => h2 w' (List.mem_cons_of_mem _ hw')
    refine ⟨d, r ++ [' '] ++ w.reverse, ?_, hd⟩
    show (w ++ ' ' :: unwords (w2 :: ws)).reverse = _
    rw [List.reverse_append, List.reverse_cons, hdr]
    simp [List.append_assoc]

theorem pyStrip_id {y : List Char}
    (hhead : ∃ d r, y = d :: r ∧ isWordChar d = true)
    (hlast : ∃ d r, y.reverse = d :: r ∧ isWordChar d = true) :
    pyStrip y = y := by
  obtain ⟨d, r, hy, hd⟩ := hhead
  obtain ⟨e, q, hyr, he⟩ := hlast
  unfold pyStrip
  rw [hy, List.dropWhile_cons_of_neg (by simp [word_not_space hd]), ← hy,
    hyr, List.dropWhile_cons_of_neg (by simp [word_not_space he]), ← hyr]
  exact List.reverse_reverse y

/-! ## Character provenance through the pipeline -/

theorem pyStrip_subset {c : Char} {l : List Char} (h : c ∈ pyStrip l) : c ∈ l := by
  unfold pyStrip at h
  rw [List.mem_reverse] at h
  have h2 := (List.dropWhile_sublist _).mem h
  rw [List.mem_reverse] at h2
  exact (List.dropWhile_sublist _).mem h2

theorem eatDotSpaces_subset {d : Char} {x : List Char}
    (h : d ∈ (eatDotSpaces x).1) : d ∈ x := by
  cases x with
  | nil => cases h
  | cons c r =>
    simp only [eatDotSpaces] at h
    split_ifs at h
    · exact List.mem_cons_of_mem _ ((List.dropWhile_sublist _).mem h)
    · exact List.mem_cons_of_mem _ ((List.dropWhile_sublist _).mem h)
    · exact h

theorem stripTitleP_subset (t : List Char) :
    ∀ (n : Nat) (pw : Bool) (s : List Char) (c : Char), s.length ≤ n →
      c ∈ stripTitleP t pw s → c ∈ s
  | 0, pw, s, c, hs, hc => by
    have : s = [] := List.eq_nil_of_length_eq_zero (Nat.le_zero.1 hs)
    subst this
    cases hc
  | n + 1, pw, s, c, hs, hc => by
    cases s with
    | nil => cases hc
    | cons c0 rest =>
      simp only [List.length_cons] at hs
      by_cases hhit : titleHit t pw (c0 :: rest) = true
      · rw [stripTitleP_cons_hit hhit] at hc
        obtain ⟨hne, -, hpre, -⟩ := titleHit_parts hhit
        have htl : 1 ≤ t.length := List.length_pos.2 hne
        have hsl : t.length ≤ rest.length + 1 := by simpa using prefix_len_le hpre
        have hlen : (eatDotSpaces ((c0 :: rest).drop t.length)).1.length ≤ n := by
          have := eatDotSpaces_len ((c0 :: rest).drop t.length)
          simp only [List.length_drop, List.length_cons] at this
          omega
        have h1 := stripTitleP_subset t n _ _ c hlen hc
        exact List.mem_of_mem_drop (eatDotSpaces_subset h1)
      · rw [stripTitleP_cons_miss (by simpa using hhit)] at hc
        rcases List.mem_cons.1 hc with rfl | h2
        · exact List.mem_cons_self _ _
        · exact List.mem_cons_of_mem _
            (stripTitleP_subset t n _ rest c (by omega) h2)

theorem fold_strip_subset :
    ∀ (l : List (List Char)) (x : List Char) {c : Char},
      c ∈ l.foldl (fun acc t => stripTitleP t false acc) x → c ∈ x
  | [], _, _, h => h
  | t :: l', x, c, h =>
    stripTitleP_subset t x.length false x c le_rfl (fold_strip_subset l' _ h)

/-! ## Folding the title passes -/

theorem fold_strip_runs :
    ∀ (l : List (List Char)) (x : List Char),
      (∀ t ∈ l, t ≠ [] ∧ ∀ c ∈ t, isWordChar c = true) →
      runsBy isWordChar (l.foldl (fun acc t => stripTitleP t false acc) x) =
        l.foldl (fun ws t => ws.filter fun w => decide (w ≠ t)) (runsBy isWordChar x)
  | [], _, _ => rfl
  | t :: l', x, h => by
    obtain ⟨hne, hall⟩ := h t (List.mem_cons_self _ _)
    show runsBy isWordChar (l'.foldl _ (stripTitleP t false x)) = _
    rw [fold_strip_runs l' (stripTitleP t false x)
      fun u hu => h u (List.mem_cons_of_mem _ hu)]
    rw [strip_runs t hne hall x.length x le_rfl]
    rfl

theorem fold_filter_preserve {u : List Char} :
    ∀ (l ws : List (List Char)), u ∉ ws →
      u ∉ l.foldl (fun ws t => ws.filter fun w => decide (w ≠ t)) ws
  | [], _, h => h
  | _ :: l', _, h =>
    fold_filter_preserve l' _ fun hmem => h (List.mem_of_mem_filter hmem)

theorem fold_filter_not_mem {u : List Char} :
    ∀ (l ws : List (List Char)), u ∈ l →
      u ∉ l.foldl (fun ws t => ws.filter fun w => decide (w ≠ t)) ws
  | [], _, hu => by cases hu
  | t :: l', ws, hu => by
    rw [List.foldl_cons]
    rcases List.mem_cons.1 hu with rfl | hmem
    · apply fold_filter_preserve
      intro hmem2
      have := List.of_mem_filter hmem2
      simp at this
    · exact fold_filter_not_mem l' _ hmem

theorem fold_strip_id {y : List Char} :
    ∀ l : List (List Char), (∀ t ∈ l, stripTitleP t false y = y) →
      l.foldl (fun acc t => stripTitleP t false acc) y = y
  | [], _ => rfl
  | t :: l', h => by
    show l'.foldl _ (stripTitleP t false y) = y
    rw [h t (List.mem_cons_self _ _)]
    exact fold_strip_id l' fun u hu => h u (List.mem_cons_of_mem _ hu)

theorem TITLES_ok : ∀ t ∈ TITLES, t ≠ [] ∧ ∀ c ∈ t, isWordChar c = true := by decide

/-! ## Replacing punctuation by spaces does not disturb the word runs -/

theorem runsBy_map (p q : Char → Bool) (f : Char → Char)
    (hpq : ∀ c, p (f c) = q c) (hfix : ∀ c, q c = true → f c = c) :
    ∀ (n : Nat) (l : List Char), l.length ≤ n → runsBy p (l.map f) = runsBy q l
  | 0, l, h => by
    have : l = [] := List.eq_nil_of_length_eq_zero (Nat.le_zero.1 h)
    subst this
    rfl
  | n + 1, l, h => by
    cases l with
    | nil => rfl
    | cons c rest =>
      simp only [List.length_cons] at h
      have hco : p ∘ f = q := funext hpq
      by_cases hq : q c = true
      · have hp : p (f c) = true := by rw [hpq]; exact hq
        rw [List.map_cons, runsBy_cons_pos _ hp, runsBy_cons_pos rest hq, hfix c hq]
        rw [List.takeWhile_map, List.dropWhile_map, hco]
        rw [map_fixed fun d hd => hfix d (List.mem_takeWhile_imp hd)]
        rw [runsBy_map p q f hpq hfix n (rest.dropWhile q)
          (le_trans (List.dropWhile_sublist _).length_le (by omega))]
      · have hqf : q c = false := by simpa using hq
        have hp : p (f c) = false := by rw [hpq]; exact hqf
        rw [List.map_cons, runsBy_cons_neg _ hp, runsBy_cons_neg rest hqf]
        exact runsBy_map p q f hpq hfix n rest (by omega)

theorem punct_map_spec (c : Char) :
    (!isSpaceChar (if isWordChar c || isSpaceChar c then c else ' ')) = isWordChar c := by
  by_cases hw : isWordChar c = true
  · rw [hw]
    simp [word_not_space hw]
  · have hwf : isWordChar c = false := by simpa using hw
    by_cases hsp : isSpaceChar c = true
    · simp [hwf, hsp]
    · have hspf : isSpaceChar c = false := by simpa using hsp
      rw [hwf, hspf]
      simp
      decide

/-! ## The normalization pipeline, characterized -/

theorem normalizeEnglish_eq (s : List Char) (hs : s ≠ []) :
    normalizeEnglish s = unwords (runsBy isWordChar
      (TITLES.foldl (fun acc t => stripTitleP t false acc) (pyStrip (s.map pyLower)))) := by
  unfold normalizeEnglish pySplit
  rw [if_neg hs]
  dsimp only
  rw [runsBy_map (fun c => !isSpaceChar c) isWordChar
    (fun c => if isWordChar c || isSpaceChar c then c else ' ')
    punct_map_spec (fun c hq => by simp [hq]) _ _ le_rfl]

/-- Claim C9: `normalize_english` is idempotent. -/
theorem C9_normalize_idem (s : List Char) :
    normalizeEnglish (normalizeEnglish s) = normalizeEnglish s := by
  by_cases hs : s = []
  · subst hs
    rfl
  · have hy : normalizeEnglish s = unwords (runsBy isWordChar
        (TITLES.foldl (fun acc t => stripTitleP t false acc) (pyStrip (s.map pyLower)))) :=
      normalizeEnglish_eq s hs
    set t1 := pyStrip (s.map pyLower) with ht1
    set t2 := TITLES.foldl (fun acc t => stripTitleP t false acc) t1 with ht2
    set ws := runsBy isWordChar t2 with hws
    have hws_sound := runsBy_sound isWordChar t2.length t2 le_rfl
    have hws_prop : ∀ w ∈ ws, w ≠ [] ∧ ∀ c ∈ w, isWordChar c = true := by
      intro w hw
      obtain ⟨hne, hall⟩ := hws_sound w hw
      exact ⟨hne, fun c hc => (hall c hc).1⟩
    have hws_chars : ∀ w ∈ ws, ∀ c ∈ w, c ∈ t2 :=
      fun w hw c hc => ((hws_sound w hw).2 c hc).2
    have ht1_lower : ∀ c ∈ t1, pyLower c = c := by
      intro c hc
      obtain ⟨a, -, rfl⟩ := List.mem_map.1 (pyStrip_subset hc)
      exact pyLower_idem a
    have hws_runs_eq : ws = TITLES.foldl
        (fun acc t => acc.filter fun w => decide (w ≠ t)) (runsBy isWordChar t1) := by
      rw [hws, ht2]
      exact fold_strip_runs TITLES t1 TITLES_ok
    have hnotitle : ∀ t ∈ TITLES, t ∉ ws := by
      intro t ht
      rw [hws_runs_eq]
      exact fold_filter_not_mem TITLES _ ht
    rw [hy]
    by_cases hwsnil : ws = []
    · rw [hwsnil]
      rfl
    · have hwne : ∀ w ∈ ws, w ≠ [] := fun w hw => (hws_prop w hw).1
      have hkey1 : (unwords ws).map pyLower = unwords ws := by
        apply map_fixed
        intro c hc
        rcases mem_unwords hc with rfl | ⟨w, hw, hcw⟩
        · decide
        · exact ht1_lower c (fold_strip_subset TITLES t1 (hws_chars w hw c hcw))
      have hkey2 : pyStrip (unwords ws) = unwords ws :=
        pyStrip_id (unwords_head_word hwsnil hws_prop) (unwords_last_word hwsnil hws_prop)
      have hruns_y : runsBy isWordChar (unwords ws) = ws :=
        runsBy_unwords (by decide) ws hws_prop
      have hkey3 : TITLES.foldl (fun acc t => stripTitleP t false acc) (unwords ws) =
          unwords ws := by
        apply fold_strip_id
        intro t ht
        obtain ⟨hne, hall⟩ := TITLES_ok t ht
        apply strip_id t hne hall (unwords ws).length _ le_rfl
        rw [hruns_y]
        exact hnotitle t ht
      have hyne : unwords ws ≠ [] := unwords_ne_nil hwsnil hwne
      rw [normalizeEnglish_eq _ hyne, hkey1, hkey2, hkey3, hruns_y]

end KYC
